import Mathlib

/-!
# Shallow embedding of the K-Medoids clustering engine (`src/unnamed/part_000`)

The source is a TypeScript class `KMedoids` operating on

* a distance matrix `number[][]`, modelled as `List (List ℚ)` (the claims under
  scrutiny restrict attention to finite, non-negative entries, so rationals are
  an adequate carrier for the reals produced by the program);
* JavaScript `Set<number>` values, modelled as insertion-ordered duplicate-free
  `List Nat` (JS sets iterate in insertion order; `add` appends a missing
  element, `delete` removes it);
* JavaScript `Map<number, _>` values, modelled as insertion-ordered association
  lists `List (Nat × _)` (`set` overwrites in place or appends);
* `Infinity` sentinels, modelled by `Option` (`none` = no candidate found yet,
  i.e. distance `+∞`; every actual matrix entry is a finite rational, so a
  comparison `d < Infinity` is always true, which the `Option` folds reproduce);
* `_.random(lo, hi)` (an integer uniform in `[min lo hi, max lo hi]`), modelled
  by an oracle value clamped into that range, so that universally quantified
  theorems cover every possible random outcome;
* the unbounded `while` loops of `initializeMedoids` and
  `associateMedoidsToClosestPoint`, modelled with explicit fuel: a `none`
  result means the loop failed to finish within the fuel (or crashed on an
  out-of-bounds access, which in JS surfaces as a `TypeError`).

`run` additionally records a ghost trace of every candidate swap it evaluates;
the engine-visible fields are projections of the same computation.
-/

namespace KMedoids

/-- JS `Set.prototype.add`: append the element if it is not already present
(insertion order is preserved). -/
def jsAdd (s : List Nat) (x : Nat) : List Nat :=
  if x ∈ s then s else s ++ [x]

/-- JS `Set.prototype.delete`: remove the element (sets hold no duplicates). -/
def jsDelete (s : List Nat) (x : Nat) : List Nat :=
  s.filter (fun y => y ≠ x)

/-- lodash `random(lo, hi)`: an integer in `[min lo hi, max lo hi]`.  The
nondeterministic draw is modelled by clamping an arbitrary oracle value `r`
into the range, so every in-range value is reachable and no other value is. -/
def jsRandom (lo hi r : Int) : Int :=
  let a := min lo hi
  let b := max lo hi
  a + (r - a).emod (b - a + 1)

/-- JS array indexing `l[i]`: `undefined` (here `none`) when out of bounds or
negative. -/
def listAt {α : Type} (l : List α) (i : Int) : Option α :=
  if i < 0 then none else l.get? i.toNat

/-- JS `Map.prototype.get`. -/
def mapGet {α : Type} (m : List (Nat × α)) (k : Nat) : Option α :=
  (m.find? (fun p => p.1 = k)).map Prod.snd

/-- JS `Map.prototype.set`: overwrite the binding in place if the key is
present, otherwise append it (insertion order is preserved). -/
def mapSet {α : Type} (m : List (Nat × α)) (k : Nat) (v : α) : List (Nat × α) :=
  if m.any (fun p => p.1 = k) then
    m.map (fun p => if p.1 = k then (k, v) else p)
  else m ++ [(k, v)]

/-- `getDistance(point1, point2) = this.distanceMatrix[point1][point2]`.
Out-of-bounds access defaults to `0`; every claim supplies in-bounds indices,
for which the default is never consulted. -/
def getDistance (M : List (List ℚ)) (point1 point2 : Nat) : ℚ :=
  (M.getD point1 []).getD point2 0

/-- `getClosestMedoid(medoids, point)`: scan the medoids in iteration order,
keeping the first strict improvement; the initial state is
`closestMedoid = -1`, `closestDistance = Infinity` (`none`). -/
def getClosestMedoid (M : List (List ℚ)) (medoids : List Nat) (point : Nat) :
    Int × Option ℚ :=
  medoids.foldl
    (fun acc medoid =>
      let d := getDistance M point medoid
      match acc.2 with
      | none => ((medoid : Int), some d)
      | some c => if d < c then ((medoid : Int), some d) else acc)
    (-1, none)

/-- The loop body of `getClosestPoint`: keep the first strict improvement
over the best candidate so far (`none` = `closestDistance` still `Infinity`). -/
def closestPointStep (M : List (List ℚ)) (medoid : Nat)
    (acc : Option (Nat × ℚ)) (point : Nat) : Option (Nat × ℚ) :=
  let d := getDistance M point medoid
  match acc with
  | none => some (point, d)
  | some pr => if d < pr.2 then some (point, d) else acc

/-- `getClosestPoint(medoid, exception)`: scan all points of `0..n-1` not in
the exception set, in ascending order, returning the closest one with its
distance (`none` when no eligible point remains). -/
def getClosestPoint (M : List (List ℚ)) (n : Nat) (medoid : Nat)
    (exception : List Nat) : Option (Nat × ℚ) :=
  ((List.range n).filter (fun x => x ∉ exception)).foldl
    (closestPointStep M medoid) none

/-- `getNonMedoids(medoids)`: the points of `0..n-1` not in the medoid set,
in ascending (range-insertion) order. -/
def getNonMedoids (n : Nat) (medoids : List Nat) : List Nat :=
  (List.range n).filter (fun x => x ∉ medoids)

/-- The mutable state of `associateMedoidsToClosestPoint`'s while loop:
the clusters map, the per-medoid accumulated costs, the
`alreadyAssociatedPoints` set and the `associatedPoints` counter. -/
structure AssocState where
  clusters : List (Nat × List Nat)
  costs : List (Nat × ℚ)
  already : List Nat
  count : Nat
  deriving Repr, DecidableEq

/-- Lines 123–131: seed each medoid's cluster with itself and its cost with 0;
`alreadyAssociatedPoints = new Set(medoids)`, `associatedPoints = medoids.size`. -/
def assocInit (medoids : List Nat) : AssocState :=
  { clusters := medoids.foldl (fun c m => mapSet c m [m]) []
    costs := medoids.foldl (fun c m => mapSet c m (0 : ℚ)) []
    already := medoids
    count := medoids.length }

/-- The body of one medoid's turn inside the while loop (lines 134–142). -/
def assocStep (M : List (List ℚ)) (n : Nat) (st : AssocState) (medoid : Nat) :
    AssocState :=
  match getClosestPoint M n medoid st.already with
  | some pr =>
      { clusters := mapSet st.clusters medoid
          (jsAdd ((mapGet st.clusters medoid).getD []) pr.1)
        costs := mapSet st.costs medoid (((mapGet st.costs medoid).getD 0) + pr.2)
        already := st.already ++ [pr.1]
        count := st.count + 1 }
  | none => st

/-- One full pass of the while-loop body: `medoids.forEach(...)`. -/
def assocPass (M : List (List ℚ)) (n : Nat) (medoids : List Nat)
    (st : AssocState) : AssocState :=
  medoids.foldl (assocStep M n) st

/-- The while loop `while (associatedPoints !== nPoints)`, with fuel;
`none` means the fuel ran out (in JS: the loop never terminates). -/
def assocLoop (M : List (List ℚ)) (n : Nat) (medoids : List Nat) :
    Nat → AssocState → Option AssocState
  | 0, _ => none
  | fuel + 1, st =>
      if st.count = n then some st
      else assocLoop M n medoids fuel (assocPass M n medoids st)

/-- Line 145: `configurationCost = sum over clusters.keys() of
costs.get(medoid) / clusters.get(medoid).size`. -/
def configCost (st : AssocState) : ℚ :=
  (st.clusters.map (fun p => ((mapGet st.costs p.1).getD 0) / (p.2.length : ℚ))).sum

/-- `associateMedoidsToClosestPoint(medoids)` (lines 122–147).  The while loop
makes at most `n` passes when it terminates at all, so fuel `n + 1` is exact:
a `none` result coincides with JS divergence. -/
def associateMedoidsToClosestPoint (M : List (List ℚ)) (n : Nat)
    (medoids : List Nat) : Option (List (Nat × List Nat) × ℚ) :=
  (assocLoop M n medoids (n + 1) (assocInit medoids)).map
    (fun st => (st.clusters, configCost st))

/-- lodash `sortBy(distances, 'distance')`: a stable ascending sort on the
distance component. -/
def sortByDistance (l : List (Nat × ℚ)) : List (Nat × ℚ) :=
  l.mergeSort (fun a b => a.2 ≤ b.2)

/-- Line 56: `startIdx = Math.floor(startProb * distances.length)`. -/
def seedStartIdx (startProb : ℚ) (count : Nat) : Int :=
  ⌊startProb * (count : ℚ)⌋

/-- Line 57: `endIdx = Math.round(endProb * (distances.length - 1))`
(JS `Math.round x = ⌊x + 1/2⌋`, which is Mathlib's `round` on `ℚ`). -/
def seedEndIdx (endProb : ℚ) (count : Nat) : Int :=
  round (endProb * ((count : ℚ) - 1))

/-- One round of `initializeMedoids`' while loop (lines 51–59): build the
(point, distance-to-closest-medoid) list over the non-medoids, sort it,
compute the window `[startIdx, endIdx]`, and add the randomly picked point.
The distance extracted from `getClosestMedoid` is finite whenever the medoid
set is non-empty; the `getD 0` default is never consulted in that case.
`none` models the JS `TypeError` on an out-of-bounds pick. -/
def initRound (M : List (List ℚ)) (n : Nat) (startProb endProb : ℚ)
    (medoids : List Nat) (r : Int) : Option (List Nat) :=
  let distances := ((List.range n).filter (fun p => p ∉ medoids)).map
    (fun p => (p, ((getClosestMedoid M medoids p).2).getD 0))
  let distancesSorted := sortByDistance distances
  let startIdx : Int := seedStartIdx startProb distances.length
  let endIdx : Int := seedEndIdx endProb distances.length
  (listAt distancesSorted (jsRandom startIdx endIdx r)).map
    (fun pr => jsAdd medoids pr.1)

/-- The while loop `while (medoids.size !== this.nClusters)`, with fuel.
Round number `i` consumes oracle value `oracle i` (the current set size). -/
def initLoop (M : List (List ℚ)) (n : Nat) (nClusters : Int)
    (startProb endProb : ℚ) (oracle : Nat → Int) :
    Nat → List Nat → Option (List Nat)
  | 0, _ => none
  | fuel + 1, medoids =>
      if (medoids.length : Int) = nClusters then some medoids
      else
        match initRound M n startProb endProb medoids (oracle medoids.length) with
        | some ms => initLoop M n nClusters startProb endProb oracle fuel ms
        | none => none

/-- `initializeMedoids()` (lines 47–62): one uniformly random first medoid
(oracle value 0), then the windowed rounds.  Fuel `n + 1` covers every
terminating JS execution (each round adds one point of `0..n-1`). -/
def initializeMedoids (M : List (List ℚ)) (n : Nat) (nClusters : Int)
    (startProb endProb : ℚ) (oracle : Nat → Int) : Option (List Nat) :=
  let first := (jsRandom 0 ((n : Int) - 1) (oracle 0)).toNat
  initLoop M n nClusters startProb endProb oracle (n + 1) (jsAdd [] first)

/-- The engine's fields (lines 9–16). -/
structure Engine where
  distanceMatrix : List (List ℚ)
  nClusters : Int
  nPoints : Nat
  nRange : List Nat
  startProb : ℚ
  endProb : ℚ
  clusters : Option (List (Nat × List Nat))
  medoids : List Nat
  deriving Repr, DecidableEq

/-- The constructor (lines 25–41): parameter validation, then field setup.
JS `throw new Error(msg)` is modelled by `Except.error msg`. -/
def kmedoidsNew (distanceMatrix : List (List ℚ)) (nClusters : Int)
    (startProb endProb : ℚ) : Except String Engine :=
  if ¬ (0 ≤ startProb ∧ startProb < endProb ∧ endProb ≤ 1) then
    .error "startProb must be smaller than endProb."
  else if ¬ (nClusters < (distanceMatrix.length : Int)) then
    .error "number of clusters must not exceed number of data points."
  else
    .ok { distanceMatrix := distanceMatrix
          nClusters := nClusters
          nPoints := distanceMatrix.length
          nRange := List.range distanceMatrix.length
          startProb := startProb
          endProb := endProb
          clusters := none
          medoids := [] }

/-- Ghost record of one evaluated candidate swap in `run`'s inner loop
(lines 177–187): the current medoid set at evaluation time, the enumerated
(medoid, nonMedoid) pair, the candidate set actually formed, the cost
bookkeeping, and whether the candidate was accepted. -/
structure SwapEntry where
  curBefore : List Nat
  medoid : Nat
  nonMedoid : Nat
  candidate : List Nat
  costBefore : ℚ
  newCost : ℚ
  accepted : Bool
  costAfter : ℚ
  deriving Repr, DecidableEq

/-- The mutable state of `run`'s refinement loop: the engine fields it
updates (`this.medoids`, `this.clusters`), the local `currentCost` and
`costChange` (`none` = `Infinity`), and the ghost trace. -/
structure RunState where
  medoids : List Nat
  clusters : Option (List (Nat × List Nat))
  currentCost : ℚ
  costChange : Option ℚ
  trace : List SwapEntry
  deriving Repr, DecidableEq

/-- One candidate evaluation (lines 177–187): form
`newMedoids = (current ∖ {medoid}) ∪ {nonMedoid}` with JS set operations,
recompute clustering and cost, accept iff `newCost < currentCost`.
`none` propagates a diverging `associateMedoidsToClosestPoint`. -/
def swapStep (M : List (List ℚ)) (n : Nat) (medoid : Nat) (st : RunState)
    (nonMedoid : Nat) : Option RunState :=
  let newMedoids := jsAdd (jsDelete st.medoids medoid) nonMedoid
  match associateMedoidsToClosestPoint M n newMedoids with
  | none => none
  | some pr =>
      if pr.2 < st.currentCost then
        some { medoids := newMedoids
               clusters := some pr.1
               currentCost := pr.2
               costChange := some (st.currentCost - pr.2)
               trace := st.trace ++
                 [⟨st.medoids, medoid, nonMedoid, newMedoids, st.currentCost,
                   pr.2, true, pr.2⟩] }
      else
        some { st with trace := st.trace ++
                 [⟨st.medoids, medoid, nonMedoid, newMedoids, st.currentCost,
                   pr.2, false, st.currentCost⟩] }

/-- The inner `forEach` over the non-medoids of one enumerated medoid
(line 176); the enumeration is computed once from the medoid set current at
entry, and is not re-evaluated when a swap is accepted. -/
def nonMedoidFold (M : List (List ℚ)) (n : Nat) (medoid : Nat) :
    RunState → List Nat → Option RunState
  | st, [] => some st
  | st, p :: ps =>
      match swapStep M n medoid st p with
      | some st' => nonMedoidFold M n medoid st' ps
      | none => none

/-- One enumerated medoid's turn (lines 175–189). -/
def medoidStep (M : List (List ℚ)) (n : Nat) (st : RunState) (medoid : Nat) :
    Option RunState :=
  nonMedoidFold M n medoid st (getNonMedoids n st.medoids)

/-- The list of one pass's outer enumeration: `this.medoids.forEach` iterates
the set object referenced at pass start, unaffected by reassignments of
`this.medoids` during the pass. -/
def medoidFold (M : List (List ℚ)) (n : Nat) :
    RunState → List Nat → Option RunState
  | st, [] => some st
  | st, m :: ms =>
      match medoidStep M n st m with
      | some st' => medoidFold M n st' ms
      | none => none

/-- One pass of the refinement loop (lines 174–190): reset `costChange` to 0,
then run the double `forEach`. -/
def runPass (M : List (List ℚ)) (n : Nat) (st : RunState) : Option RunState :=
  medoidFold M n { st with costChange := some 0 } st.medoids

/-- `costChange > tolerance` with `costChange = Infinity` represented by
`none`. -/
def ccGtTol (costChange : Option ℚ) (tolerance : ℚ) : Bool :=
  match costChange with
  | none => true
  | some c => tolerance < c

/-- The outer while loop (line 173), counting down the remaining iterations
from `maxIterations` and counting up the passes actually performed. -/
def runLoop (M : List (List ℚ)) (n : Nat) (tolerance : ℚ) :
    Nat → Nat → RunState → Option (RunState × Nat)
  | 0, passes, st => some (st, passes)
  | rem + 1, passes, st =>
      if ccGtTol st.costChange tolerance then
        match runPass M n st with
        | some st' => runLoop M n tolerance rem (passes + 1) st'
        | none => none
      else some (st, passes)

/-- The outcome of `run`: the engine after the call, the number of refinement
passes performed, the final local `currentCost`, and the ghost trace. -/
structure RunResult where
  engine : Engine
  passes : Nat
  finalCost : ℚ
  trace : List SwapEntry
  deriving Repr, DecidableEq

/-- `run(maxIterations, tolerance)` (lines 163–192).  Note that line 168
destructures the initial clustering into a local variable that is never read
again: `this.clusters` is only assigned inside the accept branch, so the
engine's `clusters` field keeps its pre-call value until a swap is accepted. -/
def run (eng : Engine) (oracle : Nat → Int) (maxIterations : Nat)
    (tolerance : ℚ) : Option RunResult :=
  match initializeMedoids eng.distanceMatrix eng.nPoints eng.nClusters
      eng.startProb eng.endProb oracle with
  | none => none
  | some medoids =>
      match associateMedoidsToClosestPoint eng.distanceMatrix eng.nPoints medoids with
      | none => none
      | some pr =>
          let st : RunState :=
            { medoids := medoids
              clusters := eng.clusters
              currentCost := pr.2
              costChange := none
              trace := [] }
          match runLoop eng.distanceMatrix eng.nPoints tolerance maxIterations 0 st with
          | none => none
          | some pr' =>
              some { engine := { eng with medoids := pr'.1.medoids
                                          clusters := pr'.1.clusters }
                     passes := pr'.2
                     finalCost := pr'.1.currentCost
                     trace := pr'.1.trace }

/-! ## Basic lemmas about the JS primitives -/

theorem jsAdd_eq_of_mem {s : List Nat} {x : Nat} (h : x ∈ s) : jsAdd s x = s := by
  simp [jsAdd, h]

theorem jsAdd_eq_of_not_mem {s : List Nat} {x : Nat} (h : x ∉ s) :
    jsAdd s x = s ++ [x] := by
  simp [jsAdd, h]

theorem mem_jsAdd {s : List Nat} {x y : Nat} : y ∈ jsAdd s x ↔ y ∈ s ∨ y = x := by
  by_cases h : x ∈ s
  · rw [jsAdd_eq_of_mem h]
    constructor
    · exact Or.inl
    · rintro (hy | rfl)
      · exact hy
      · exact h
  · rw [jsAdd_eq_of_not_mem h]
    simp

theorem jsAdd_nodup {s : List Nat} {x : Nat} (h : s.Nodup) : (jsAdd s x).Nodup := by
  by_cases hx : x ∈ s
  · rw [jsAdd_eq_of_mem hx]; exact h
  · rw [jsAdd_eq_of_not_mem hx]
    simp [List.nodup_append, h, hx]

theorem length_jsAdd_of_not_mem {s : List Nat} {x : Nat} (h : x ∉ s) :
    (jsAdd s x).length = s.length + 1 := by
  rw [jsAdd_eq_of_not_mem h]; simp

theorem mem_jsDelete {s : List Nat} {x y : Nat} :
    y ∈ jsDelete s x ↔ y ∈ s ∧ y ≠ x := by
  simp [jsDelete]

theorem jsDelete_nodup {s : List Nat} {x : Nat} (h : s.Nodup) :
    (jsDelete s x).Nodup := h.filter _

theorem jsDelete_eq_of_not_mem {s : List Nat} {x : Nat} (h : x ∉ s) :
    jsDelete s x = s := by
  apply List.filter_eq_self.mpr
  intro y hy
  simp only [decide_eq_true_eq]
  rintro rfl
  exact h hy

theorem length_jsDelete_of_mem {s : List Nat} {x : Nat} (hx : x ∈ s) (h : s.Nodup) :
    (jsDelete s x).length + 1 = s.length := by
  induction s with
  | nil => simp at hx
  | cons a rest ih =>
      rcases List.nodup_cons.mp h with ⟨ha, hrest⟩
      by_cases hax : a = x
      · subst hax
        have h1 : jsDelete (a :: rest) a = jsDelete rest a := by
          simp [jsDelete]
        rw [h1, jsDelete_eq_of_not_mem ha]
        simp
      · have h1 : jsDelete (a :: rest) x = a :: jsDelete rest x := by
          simp [jsDelete, hax]
        have hx' : x ∈ rest := by
          rcases List.mem_cons.mp hx with h' | h'
          · exact absurd h'.symm hax
          · exact h'
        rw [h1]
        simp only [List.length_cons]
        have := ih hx' hrest
        omega


theorem jsRandom_bounds (lo hi r : Int) :
    min lo hi ≤ jsRandom lo hi r ∧ jsRandom lo hi r ≤ max lo hi := by
  simp only [jsRandom]
  have hab : min lo hi ≤ max lo hi := min_le_max
  have h1 : 0 ≤ (r - min lo hi).emod (max lo hi - min lo hi + 1) :=
    Int.emod_nonneg _ (by omega)
  have h2 : (r - min lo hi).emod (max lo hi - min lo hi + 1) <
      max lo hi - min lo hi + 1 := Int.emod_lt_of_pos _ (by omega)
  omega

theorem listAt_eq_some {α : Type} {l : List α} {i : Int} (h0 : 0 ≤ i)
    (h1 : i < l.length) : ∃ a, listAt l i = some a ∧ a ∈ l := by
  have hlt : i.toNat < l.length := by omega
  refine ⟨l.get ⟨i.toNat, hlt⟩, ?_, List.get_mem _ _ _⟩
  simp only [listAt, if_neg (by omega : ¬ i < 0)]
  exact List.get?_eq_get hlt

/-! ## Lemmas about the JS map primitives -/

theorem mapSet_any_iff {α : Type} {m : List (Nat × α)} {k : Nat} :
    (m.any (fun p => p.1 = k)) = true ↔ k ∈ m.map Prod.fst := by
  rw [List.any_eq_true, List.mem_map]
  constructor
  · rintro ⟨p, hp, he⟩
    exact ⟨p, hp, by simpa using he⟩
  · rintro ⟨p, hp, he⟩
    exact ⟨p, hp, by simpa using he⟩

theorem mapSet_eq_append_of_not_mem {α : Type} {m : List (Nat × α)} {k : Nat}
    (h : k ∉ m.map Prod.fst) (v : α) : mapSet m k v = m ++ [(k, v)] := by
  rw [mapSet, if_neg]
  rw [mapSet_any_iff]
  exact h

theorem mapSet_keys_of_mem {α : Type} {m : List (Nat × α)} {k : Nat}
    (h : k ∈ m.map Prod.fst) (v : α) :
    (mapSet m k v).map Prod.fst = m.map Prod.fst := by
  rw [mapSet, if_pos (mapSet_any_iff.mpr h), List.map_map]
  apply List.map_congr_left
  intro p _
  simp only [Function.comp_apply]
  split
  · next hp => exact hp.symm
  · rfl

theorem mapGet_eq_none_of_not_mem {α : Type} {m : List (Nat × α)} {k : Nat}
    (h : k ∉ m.map Prod.fst) : mapGet m k = none := by
  rw [mapGet, List.find?_eq_none.mpr]
  · rfl
  · intro p hp
    simp only [decide_eq_true_eq]
    rintro rfl
    exact h (List.mem_map_of_mem Prod.fst hp)

theorem mapGet_cons_self {α : Type} {m : List (Nat × α)} {p : Nat × α} :
    mapGet (p :: m) p.1 = some p.2 := by
  rw [mapGet, List.find?_cons_of_pos _ (by simp)]
  rfl

theorem mapGet_cons_ne {α : Type} {m : List (Nat × α)} {p : Nat × α} {k : Nat}
    (h : p.1 ≠ k) : mapGet (p :: m) k = mapGet m k := by
  rw [mapGet, List.find?_cons_of_neg _ (by simp [h])]
  rfl

/-- Decompose an association list with duplicate-free keys at a present key:
`mapGet` reads the unique entry and `mapSet` replaces exactly it. -/
theorem exists_mapSet_decomp {α : Type} {m : List (Nat × α)} {k : Nat}
    (hk : k ∈ m.map Prod.fst) (hnd : (m.map Prod.fst).Nodup) :
    ∃ l₁ v l₂, m = l₁ ++ (k, v) :: l₂ ∧ k ∉ l₁.map Prod.fst ∧
      k ∉ l₂.map Prod.fst ∧ mapGet m k = some v ∧
      ∀ w, mapSet m k w = l₁ ++ (k, w) :: l₂ := by
  induction m with
  | nil => simp at hk
  | cons p rest ih =>
      simp only [List.map_cons, List.nodup_cons] at hnd
      by_cases hp : p.1 = k
      · have hrest : k ∉ rest.map Prod.fst := hp ▸ hnd.1
        refine ⟨[], p.2, rest, ?_, by simp, hrest, ?_, ?_⟩
        · simp only [List.nil_append]
          congr 1
          exact Prod.ext hp rfl
        · rw [← hp]
          exact mapGet_cons_self
        · intro w
          rw [mapSet, if_pos (mapSet_any_iff.mpr (by simp [hp]))]
          simp only [List.map_cons, if_pos hp, List.nil_append]
          congr 1
          have hid : rest.map (fun q => if q.1 = k then (k, w) else q) =
              rest.map id := by
            apply List.map_congr_left
            intro q hq
            rw [if_neg, id]
            intro hq1
            exact hrest (hq1 ▸ List.mem_map_of_mem Prod.fst hq)
          rw [hid, List.map_id]
      · have hk' : k ∈ rest.map Prod.fst := by
          rw [List.map_cons] at hk
          exact (List.mem_cons.mp hk).resolve_left (fun h => hp h.symm)
        obtain ⟨l₁, v, l₂, hdec, hl₁, hl₂, hget, hset⟩ := ih hk' hnd.2
        refine ⟨p :: l₁, v, l₂, by rw [hdec]; rfl, ?_, hl₂, ?_, ?_⟩
        · simp only [List.map_cons, List.mem_cons]
          rintro (h | h)
          · exact hp h.symm
          · exact hl₁ h
        · rw [mapGet_cons_ne hp]
          exact hget
        · intro w
          rw [mapSet, if_pos (mapSet_any_iff.mpr (by simp [List.mem_cons, hk']))]
          simp only [List.map_cons, if_neg hp, List.cons_append]
          congr 1
          have h2 := hset w
          rw [mapSet, if_pos (mapSet_any_iff.mpr hk')] at h2
          exact h2

theorem mapGet_of_mem {α : Type} {m : List (Nat × α)}
    (hnd : (m.map Prod.fst).Nodup) {p : Nat × α} (hp : p ∈ m) :
    mapGet m p.1 = some p.2 := by
  induction m with
  | nil => simp at hp
  | cons q rest ih =>
      simp only [List.map_cons, List.nodup_cons] at hnd
      rcases List.mem_cons.mp hp with rfl | hp'
      · exact mapGet_cons_self
      · have hq : q.1 ≠ p.1 := by
          intro h
          exact hnd.1 (h ▸ List.mem_map_of_mem Prod.fst hp')
        rw [mapGet_cons_ne hq]
        exact ih hnd.2 hp'

theorem mem_of_mapGet {α : Type} {m : List (Nat × α)} {k : Nat} {v : α}
    (h : mapGet m k = some v) : (k, v) ∈ m := by
  rw [mapGet] at h
  obtain ⟨p, hp, hv⟩ := Option.map_eq_some'.mp h
  have h1 := List.find?_some hp
  have h2 := List.mem_of_find?_eq_some hp
  simp only [decide_eq_true_eq] at h1
  obtain ⟨a, b⟩ := p
  simp only at h1 hv
  subst h1
  subst hv
  exact h2

theorem foldl_mapSet_eq {α : Type} (f : Nat → α) (l : List Nat)
    (init : List (Nat × α)) (hd : l.Nodup)
    (hdisj : ∀ k ∈ l, k ∉ init.map Prod.fst) :
    l.foldl (fun c m => mapSet c m (f m)) init =
      init ++ l.map (fun m => (m, f m)) := by
  induction l generalizing init with
  | nil => simp
  | cons m ms ih =>
      simp only [List.foldl_cons, List.map_cons]
      rw [mapSet_eq_append_of_not_mem (hdisj m (List.mem_cons_self m ms)) (f m)]
      rw [ih (init ++ [(m, f m)]) (List.nodup_cons.mp hd).2]
      · simp
      · intro k hk
        simp only [List.map_append, List.mem_append, List.map_cons]
        rintro (h | h)
        · exact hdisj k (List.mem_cons_of_mem m hk) h
        · simp only [List.map_nil, List.mem_singleton] at h
          exact (List.nodup_cons.mp hd).1 (h ▸ hk)

/-! ## Lemmas about `getClosestPoint` -/

theorem closestPointStep_some {M : List (List ℚ)} {medoid : Nat}
    (pr : Nat × ℚ) (p : Nat) :
    closestPointStep M medoid (some pr) p =
      some (if getDistance M p medoid < pr.2 then (p, getDistance M p medoid)
            else pr) := by
  rw [closestPointStep]
  split
  · rfl
  · rfl

theorem closestPointFold_some {M : List (List ℚ)} {medoid : Nat} :
    ∀ (l : List Nat) (pr : Nat × ℚ),
    ∃ pr', l.foldl (closestPointStep M medoid) (some pr) = some pr' ∧
      (pr' = pr ∨ pr'.1 ∈ l) := by
  intro l
  induction l with
  | nil => exact fun pr => ⟨pr, rfl, Or.inl rfl⟩
  | cons p rest ih =>
      intro pr
      simp only [List.foldl_cons, closestPointStep_some]
      by_cases hd : getDistance M p medoid < pr.2
      · rw [if_pos hd]
        obtain ⟨pr', h1, h2⟩ := ih (p, getDistance M p medoid)
        refine ⟨pr', h1, Or.inr ?_⟩
        rcases h2 with rfl | h2
        · exact List.mem_cons_self _ _
        · exact List.mem_cons_of_mem _ h2
      · rw [if_neg hd]
        obtain ⟨pr', h1, h2⟩ := ih pr
        refine ⟨pr', h1, ?_⟩
        rcases h2 with rfl | h2
        · exact Or.inl rfl
        · exact Or.inr (List.mem_cons_of_mem _ h2)

/-- The eligible-point list of `getClosestPoint`. -/
def eligible (n : Nat) (exception : List Nat) : List Nat :=
  (List.range n).filter (fun x => x ∉ exception)

theorem mem_eligible {n : Nat} {exception : List Nat} {x : Nat} :
    x ∈ eligible n exception ↔ x < n ∧ x ∉ exception := by
  simp [eligible]

theorem getClosestPoint_eq_none (M : List (List ℚ)) (n medoid : Nat)
    {exception : List Nat} (h : eligible n exception = []) :
    getClosestPoint M n medoid exception = none := by
  rw [getClosestPoint]
  rw [eligible] at h
  rw [h]
  rfl

theorem getClosestPoint_eq_some (M : List (List ℚ)) (n medoid : Nat)
    {exception : List Nat} (h : eligible n exception ≠ []) :
    ∃ pr, getClosestPoint M n medoid exception = some pr ∧
      pr.1 ∈ eligible n exception := by
  obtain ⟨p, rest, hl⟩ := List.exists_cons_of_ne_nil h
  rw [getClosestPoint]
  have hfil : (List.range n).filter (fun x => decide (x ∉ exception)) = p :: rest := hl
  rw [hfil]
  simp only [List.foldl_cons]
  have hstep : closestPointStep M medoid none p =
      some (p, getDistance M p medoid) := rfl
  rw [hstep]
  obtain ⟨pr', h1, h2⟩ := closestPointFold_some rest (p, getDistance M p medoid)
  refine ⟨pr', h1, ?_⟩
  rw [hl]
  rcases h2 with rfl | h2
  · exact List.mem_cons_self _ _
  · exact List.mem_cons_of_mem _ h2

theorem eligible_ne_nil (n : Nat) (exception : List Nat)
    (hlen : exception.length < n) : eligible n exception ≠ [] := by
  intro h
  rw [eligible, List.filter_eq_nil_iff] at h
  have hsub : List.range n ⊆ exception := by
    intro x hx
    by_contra hnx
    exact absurd (by simpa using hnx) (by simpa using h x hx)
  have := (List.nodup_range n).subperm hsub
  have hle := this.length_le
  simp at hle
  omega

/-! ## The invariant of the assignment loop -/

theorem length_le_of_nodup_lt {l : List Nat} {n : Nat} (hnd : l.Nodup)
    (hlt : ∀ x ∈ l, x < n) : l.length ≤ n := by
  have hsub : l ⊆ List.range n := fun x hx => List.mem_range.mpr (hlt x hx)
  have := (hnd.subperm hsub).length_le
  simpa using this

theorem perm_range_of_nodup_lt {l : List Nat} {n : Nat} (hnd : l.Nodup)
    (hlt : ∀ x ∈ l, x < n) (hlen : l.length = n) : l.Perm (List.range n) := by
  have hsub : l ⊆ List.range n := fun x hx => List.mem_range.mpr (hlt x hx)
  refine (hnd.subperm hsub).perm_of_length_le ?_
  simp [hlen]

theorem join_map_singleton (l : List Nat) :
    ((l.map (fun m => [m])).flatten) = l := by
  induction l with
  | nil => rfl
  | cons a rest ih => simp [ih]

/-- The state invariant maintained by `associateMedoidsToClosestPoint`'s
while loop: the clusters/costs maps are keyed exactly by the medoids in
iteration order, each cluster starts with its own medoid, the clusters
partition the `alreadyAssociatedPoints` set, and the `associatedPoints`
counter equals its size. -/
structure AssocInv (n : Nat) (medoids : List Nat) (st : AssocState) : Prop where
  keysClusters : st.clusters.map Prod.fst = medoids
  keysCosts : st.costs.map Prod.fst = medoids
  nodupAlready : st.already.Nodup
  memAlreadyLt : ∀ x ∈ st.already, x < n
  countEq : st.count = st.already.length
  headCluster : ∀ m ∈ medoids, ∃ rest, mapGet st.clusters m = some (m :: rest)
  joinPerm : ((st.clusters.map Prod.snd).flatten).Perm st.already

theorem map_fst_mk {α : Type} (f : Nat → α) (l : List Nat) :
    (l.map (fun m => (m, f m))).map Prod.fst = l := by
  induction l with
  | nil => rfl
  | cons a rest ih => simp only [List.map_cons, ih]

theorem assocInit_inv {n : Nat} {medoids : List Nat} (hnd : medoids.Nodup)
    (hlt : ∀ m ∈ medoids, m < n) : AssocInv n medoids (assocInit medoids) := by
  have hclusters : (assocInit medoids).clusters =
      medoids.map (fun m => (m, [m])) := by
    rw [assocInit]
    exact foldl_mapSet_eq _ medoids [] hnd (by simp)
  have hcosts : (assocInit medoids).costs =
      medoids.map (fun m => (m, (0 : ℚ))) := by
    rw [assocInit]
    exact foldl_mapSet_eq _ medoids [] hnd (by simp)
  have hkeys : (medoids.map (fun m => (m, [m]))).map Prod.fst = medoids :=
    map_fst_mk _ medoids
  refine ⟨?_, ?_, hnd, hlt, rfl, ?_, ?_⟩
  · rw [hclusters]
    exact hkeys
  · rw [hcosts]
    exact map_fst_mk _ medoids
  · intro m hm
    refine ⟨[], ?_⟩
    rw [hclusters]
    have hmm : ((m, [m]) : Nat × List Nat) ∈ medoids.map (fun m => (m, [m])) :=
      List.mem_map_of_mem _ hm
    have hget := mapGet_of_mem (p := (m, [m]))
      (by rw [map_fst_mk]; exact hnd) hmm
    exact hget
  · rw [hclusters, List.map_map]
    have h2 : (medoids.map (Prod.snd ∘ fun m => (m, [m]))) =
        medoids.map (fun m => [m]) := List.map_congr_left (fun a _ => rfl)
    rw [h2, join_map_singleton]
    exact List.Perm.refl _

theorem mem_already_of_mem_cluster {n : Nat} {medoids : List Nat}
    {st : AssocState} (inv : AssocInv n medoids st) {cl : List Nat}
    (hcl : cl ∈ st.clusters.map Prod.snd) {x : Nat} (hx : x ∈ cl) :
    x ∈ st.already := by
  have : x ∈ (st.clusters.map Prod.snd).flatten := List.mem_flatten.mpr ⟨cl, hcl, hx⟩
  exact inv.joinPerm.mem_iff.mp this

theorem assocStep_inv {M : List (List ℚ)} {n : Nat} {medoids : List Nat}
    {st : AssocState} (inv : AssocInv n medoids st) (hnd : medoids.Nodup)
    {m : Nat} (hm : m ∈ medoids) :
    AssocInv n medoids (assocStep M n st m) ∧
      st.count ≤ (assocStep M n st m).count ∧
      (st.count < n → st.count + 1 ≤ (assocStep M n st m).count) := by
  have hkeysnd : (st.clusters.map Prod.fst).Nodup := inv.keysClusters ▸ hnd
  by_cases hel : eligible n st.already = []
  · have hnone := getClosestPoint_eq_none M n m hel
    have hstep : assocStep M n st m = st := by
      rw [assocStep, hnone]
    constructor
    · rw [hstep]; exact inv
    constructor
    · rw [hstep]
    · intro hcount
      exfalso
      have := eligible_ne_nil n st.already
        (by rw [← inv.countEq]; exact hcount)
      exact this hel
  · obtain ⟨pr, hsome, hmem⟩ := getClosestPoint_eq_some M n m hel
    obtain ⟨hplt, hpnot⟩ := mem_eligible.mp hmem
    obtain ⟨restm, hgetm⟩ := inv.headCluster m hm
    have hpcl : pr.1 ∉ m :: restm := by
      intro hx
      exact hpnot (mem_already_of_mem_cluster inv
        (List.mem_map_of_mem Prod.snd (mem_of_mapGet hgetm)) hx)
    obtain ⟨l₁, v, l₂, hdec, hl₁, hl₂, hget, hset⟩ :=
      exists_mapSet_decomp (inv.keysClusters ▸ hm) hkeysnd
    have hv : v = m :: restm := by
      rw [hget] at hgetm
      exact Option.some.inj hgetm
    have hstep : assocStep M n st m =
        { clusters := mapSet st.clusters m (jsAdd (m :: restm) pr.1)
          costs := mapSet st.costs m (((mapGet st.costs m).getD 0) + pr.2)
          already := st.already ++ [pr.1]
          count := st.count + 1 } := by
      rw [assocStep, hsome, hgetm]
      rfl
    have hadd : jsAdd (m :: restm) pr.1 = (m :: restm) ++ [pr.1] :=
      jsAdd_eq_of_not_mem hpcl
    have hsetv : mapSet st.clusters m (jsAdd (m :: restm) pr.1) =
        l₁ ++ (m, (m :: restm) ++ [pr.1]) :: l₂ := by
      rw [hadd]
      exact hset _
    have hkeysnew : (mapSet st.clusters m (jsAdd (m :: restm) pr.1)).map Prod.fst =
        medoids := by
      rw [mapSet_keys_of_mem (inv.keysClusters ▸ hm), inv.keysClusters]
    refine ⟨⟨?_, ?_, ?_, ?_, ?_, ?_, ?_⟩, ?_, ?_⟩
    · rw [hstep]
      exact hkeysnew
    · rw [hstep]
      simp only
      rw [mapSet_keys_of_mem (inv.keysCosts ▸ hm), inv.keysCosts]
    · rw [hstep]
      simp only
      simp [List.nodup_append, inv.nodupAlready, hpnot]
    · rw [hstep]
      simp only
      intro x hx
      rcases List.mem_append.mp hx with hx | hx
      · exact inv.memAlreadyLt x hx
      · simp only [List.mem_singleton] at hx
        exact hx ▸ hplt
    · rw [hstep]
      simp only
      rw [inv.countEq]
      simp
    · rw [hstep]
      simp only
      intro m' hm'
      by_cases hmm : m' = m
      · subst hmm
        refine ⟨restm ++ [pr.1], ?_⟩
        have hmem' : ((m', (m' :: restm) ++ [pr.1]) : Nat × List Nat) ∈
            mapSet st.clusters m' (jsAdd (m' :: restm) pr.1) := by
          rw [hsetv]
          simp
        have := mapGet_of_mem (hkeysnew ▸ hnd) hmem'
        simpa using this
      · obtain ⟨rest', hget'⟩ := inv.headCluster m' hm'
        have hmem0 : ((m', m' :: rest') : Nat × List Nat) ∈ st.clusters :=
          mem_of_mapGet hget'
        have hmem' : ((m', m' :: rest') : Nat × List Nat) ∈
            mapSet st.clusters m (jsAdd (m :: restm) pr.1) := by
          rw [hsetv]
          rw [hdec] at hmem0
          rcases List.mem_append.mp hmem0 with h | h
          · exact List.mem_append.mpr (Or.inl h)
          · rcases List.mem_cons.mp h with h | h
            · exfalso
              have : m' = m := by
                have := congrArg Prod.fst h
                simpa [hv] using this
              exact hmm this
            · exact List.mem_append.mpr (Or.inr (List.mem_cons_of_mem _ h))
        exact ⟨rest', mapGet_of_mem (hkeysnew ▸ hnd) hmem'⟩
    · rw [hstep]
      simp only
      rw [hsetv]
      have hperm0 := inv.joinPerm
      rw [hdec, hv] at hperm0
      rw [List.perm_iff_count]
      intro a
      have hc := List.perm_iff_count.mp hperm0 a
      simp only [List.map_append, List.map_cons, List.flatten_append,
        List.flatten_cons, List.count_append, List.count_cons] at hc ⊢
      omega
    · rw [hstep]
      simp only
      omega
    · intro hcount
      rw [hstep]

theorem count_le_n {n : Nat} {medoids : List Nat} {st : AssocState}
    (inv : AssocInv n medoids st) : st.count ≤ n := by
  rw [inv.countEq]
  exact length_le_of_nodup_lt inv.nodupAlready inv.memAlreadyLt

theorem assocFold_inv {M : List (List ℚ)} {n : Nat} {medoids : List Nat}
    (hnd : medoids.Nodup) :
    ∀ (l : List Nat) (st : AssocState), (∀ m ∈ l, m ∈ medoids) →
    AssocInv n medoids st →
    AssocInv n medoids (l.foldl (assocStep M n) st) ∧
      st.count ≤ (l.foldl (assocStep M n) st).count := by
  intro l
  induction l with
  | nil => exact fun st _ inv => ⟨inv, le_refl _⟩
  | cons m rest ih =>
      intro st hsub inv
      simp only [List.foldl_cons]
      obtain ⟨inv', hle, _⟩ :=
        assocStep_inv (M := M) inv hnd (hsub m (List.mem_cons_self m rest))
      obtain ⟨inv'', hle'⟩ := ih _ (fun x hx => hsub x (List.mem_cons_of_mem m hx)) inv'
      exact ⟨inv'', le_trans hle hle'⟩

theorem assocPass_inv {M : List (List ℚ)} {n : Nat} {medoids : List Nat}
    {st : AssocState} (hnd : medoids.Nodup) (inv : AssocInv n medoids st) :
    AssocInv n medoids (assocPass M n medoids st) ∧
      st.count ≤ (assocPass M n medoids st).count := by
  exact assocFold_inv hnd medoids st (fun _ h => h) inv

theorem assocPass_progress {M : List (List ℚ)} {n : Nat} {medoids : List Nat}
    {st : AssocState} (hnd : medoids.Nodup) (hne : medoids ≠ [])
    (inv : AssocInv n medoids st) (hcount : st.count < n) :
    st.count + 1 ≤ (assocPass M n medoids st).count := by
  obtain ⟨m, rest, rfl⟩ := List.exists_cons_of_ne_nil hne
  rw [assocPass]
  simp only [List.foldl_cons]
  obtain ⟨inv', _, hstrict⟩ :=
    assocStep_inv (M := M) inv hnd (List.mem_cons_self m rest)
  obtain ⟨_, hle⟩ := assocFold_inv hnd rest _
    (fun x hx => List.mem_cons_of_mem m hx) inv'
  exact le_trans (hstrict hcount) hle

theorem assocLoop_spec {M : List (List ℚ)} {n : Nat} {medoids : List Nat}
    (hnd : medoids.Nodup) (hne : medoids ≠ []) :
    ∀ (fuel : Nat) (st : AssocState), AssocInv n medoids st →
    n - st.count < fuel →
    ∃ st', assocLoop M n medoids fuel st = some st' ∧
      AssocInv n medoids st' ∧ st'.count = n := by
  intro fuel
  induction fuel with
  | zero => intro st _ h; omega
  | succ f ih =>
      intro st inv hfuel
      rw [assocLoop]
      by_cases hc : st.count = n
      · rw [if_pos hc]
        exact ⟨st, rfl, inv, hc⟩
      · rw [if_neg hc]
        have hlt : st.count < n := lt_of_le_of_ne (count_le_n inv) hc
        obtain ⟨inv', _⟩ := assocPass_inv (M := M) hnd inv
        have hprog := assocPass_progress (M := M) hnd hne inv hlt
        have hle := count_le_n inv'
        exact ih _ inv' (by omega)

/-- Master specification of `associateMedoidsToClosestPoint`: for a non-empty
duplicate-free medoid set with in-range indices, the while loop terminates in
the fuel budget and its final state satisfies the full invariant with every
point assigned. -/
theorem associate_spec (M : List (List ℚ)) (n : Nat) (medoids : List Nat)
    (hne : medoids ≠ []) (hnd : medoids.Nodup)
    (hlt : ∀ m ∈ medoids, m < n) :
    ∃ st, assocLoop M n medoids (n + 1) (assocInit medoids) = some st ∧
      AssocInv n medoids st ∧ st.count = n ∧
      st.already.Perm (List.range n) ∧
      associateMedoidsToClosestPoint M n medoids =
        some (st.clusters, configCost st) := by
  obtain ⟨st, hloop, inv, hcount⟩ :=
    assocLoop_spec (M := M) hnd hne (n + 1) (assocInit medoids)
      (assocInit_inv hnd hlt) (by omega)
  refine ⟨st, hloop, inv, hcount, ?_, ?_⟩
  · refine perm_range_of_nodup_lt inv.nodupAlready inv.memAlreadyLt ?_
    rw [← inv.countEq]
    exact hcount
  · rw [associateMedoidsToClosestPoint, hloop]
    rfl

/-- C2: for every non-empty set of distinct medoid indices in `{0..n-1}`
over an n×n matrix of non-negative (finite, i.e. rational) distances,
`associateMedoidsToClosestPoint` returns clusters keyed by the medoids that
partition `{0..n-1}` — their members jointly cover exactly the points
`0..n-1`, no point lies in two clusters — and every medoid is a member of
its own cluster. -/
theorem associate_partition_invariant (M : List (List ℚ)) (n : Nat)
    (medoids : List Nat) (hsq1 : M.length = n)
    (hsq2 : ∀ row ∈ M, row.length = n)
    (hnonneg : ∀ row ∈ M, ∀ d ∈ row, 0 ≤ d)
    (hne : medoids ≠ []) (hnd : medoids.Nodup)
    (hlt : ∀ m ∈ medoids, m < n) :
    ∃ cl cost, associateMedoidsToClosestPoint M n medoids = some (cl, cost) ∧
      cl.map Prod.fst = medoids ∧
      (∀ x, x ∈ (cl.map Prod.snd).flatten ↔ x < n) ∧
      ((cl.map Prod.snd).flatten).Nodup ∧
      List.Pairwise (fun p q => ∀ x ∈ p.2, x ∉ q.2) cl ∧
      (∀ m ∈ medoids, ∃ mems, mapGet cl m = some mems ∧ m ∈ mems) := by
  obtain ⟨st, hloop, inv, hcount, hperm, hassoc⟩ :=
    associate_spec M n medoids hne hnd hlt
  have hjoinperm : ((st.clusters.map Prod.snd).flatten).Perm (List.range n) :=
    inv.joinPerm.trans hperm
  refine ⟨st.clusters, configCost st, hassoc, inv.keysClusters, ?_, ?_, ?_, ?_⟩
  · intro x
    rw [hjoinperm.mem_iff, List.mem_range]
  · exact hjoinperm.nodup_iff.mpr (List.nodup_range n)
  · have hnodup : ((st.clusters.map Prod.snd).flatten).Nodup :=
      hjoinperm.nodup_iff.mpr (List.nodup_range n)
    have hdisj := (List.nodup_flatten.mp hnodup).2
    have := List.pairwise_map.mp hdisj
    exact this.imp (fun h x hx hx' => h hx hx')
  · intro m hm
    obtain ⟨rest, hget⟩ := inv.headCluster m hm
    exact ⟨m :: rest, hget, List.mem_cons_self m rest⟩

/-- C7: the configuration cost returned by `associateMedoidsToClosestPoint`
equals the sum over the medoids of that medoid's accumulated distance total
divided by its cluster's final size. -/
theorem associate_cost_formula (M : List (List ℚ)) (n : Nat)
    (medoids : List Nat) (hsq1 : M.length = n)
    (hsq2 : ∀ row ∈ M, row.length = n)
    (hnonneg : ∀ row ∈ M, ∀ d ∈ row, 0 ≤ d)
    (hne : medoids ≠ []) (hnd : medoids.Nodup)
    (hlt : ∀ m ∈ medoids, m < n) :
    ∃ st, assocLoop M n medoids (n + 1) (assocInit medoids) = some st ∧
      associateMedoidsToClosestPoint M n medoids =
        some (st.clusters, configCost st) ∧
      configCost st = (medoids.map (fun m =>
        ((mapGet st.costs m).getD 0) /
          (((mapGet st.clusters m).getD []).length : ℚ))).sum := by
  obtain ⟨st, hloop, inv, hcount, hperm, hassoc⟩ :=
    associate_spec M n medoids hne hnd hlt
  refine ⟨st, hloop, hassoc, ?_⟩
  rw [configCost, ← inv.keysClusters, List.map_map]
  congr 1
  apply List.map_congr_left
  intro p hp
  have hget : mapGet st.clusters p.1 = some p.2 :=
    mapGet_of_mem (by rw [inv.keysClusters]; exact hnd) hp
  simp only [Function.comp_apply, hget, Option.getD_some]

theorem join_length_ge (cl : List (Nat × List Nat))
    (h1 : ∀ p ∈ cl, 1 ≤ p.2.length) :
    cl.length ≤ ((cl.map Prod.snd).flatten).length := by
  induction cl with
  | nil => simp
  | cons p rest ih =>
      simp only [List.map_cons, List.flatten_cons, List.length_append,
        List.length_cons]
      have hp := h1 p (List.mem_cons_self p rest)
      have := ih (fun q hq => h1 q (List.mem_cons_of_mem p hq))
      omega

theorem all_singleton (cl : List (Nat × List Nat))
    (h1 : ∀ p ∈ cl, 1 ≤ p.2.length)
    (h2 : ((cl.map Prod.snd).flatten).length = cl.length) :
    ∀ p ∈ cl, p.2.length = 1 := by
  induction cl with
  | nil => simp
  | cons p rest ih =>
      simp only [List.map_cons, List.flatten_cons, List.length_append,
        List.length_cons] at h2
      have hp := h1 p (List.mem_cons_self p rest)
      have hge := join_length_ge rest (fun q hq => h1 q (List.mem_cons_of_mem p hq))
      have hplen : p.2.length = 1 := by omega
      intro q hq
      rcases List.mem_cons.mp hq with rfl | hq'
      · exact hplen
      · exact ih (fun r hr => h1 r (List.mem_cons_of_mem p hr)) (by omega) q hq'

theorem exists_two_entry (cl : List (Nat × List Nat))
    (h1 : ∀ p ∈ cl, 1 ≤ p.2.length)
    (h2 : ((cl.map Prod.snd).flatten).length = cl.length + 1) :
    ∃ l₁ p₀ l₂, cl = l₁ ++ p₀ :: l₂ ∧ p₀.2.length = 2 ∧
      ∀ p ∈ l₁ ++ l₂, p.2.length = 1 := by
  induction cl with
  | nil => simp at h2
  | cons p rest ih =>
      simp only [List.map_cons, List.flatten_cons, List.length_append,
        List.length_cons] at h2
      have hp := h1 p (List.mem_cons_self p rest)
      have hge := join_length_ge rest (fun q hq => h1 q (List.mem_cons_of_mem p hq))
      by_cases hplen : p.2.length = 1
      · obtain ⟨l₁, p₀, l₂, hdec, hp₀, hrest⟩ :=
          ih (fun q hq => h1 q (List.mem_cons_of_mem p hq)) (by omega)
        refine ⟨p :: l₁, p₀, l₂, by rw [hdec]; rfl, hp₀, ?_⟩
        intro q hq
        have hq2 : q = p ∨ q ∈ l₁ ++ l₂ := by
          rcases List.mem_append.mp hq with h | h
          · rcases List.mem_cons.mp h with h1 | h1
            · exact Or.inl h1
            · exact Or.inr (List.mem_append.mpr (Or.inl h1))
          · exact Or.inr (List.mem_append.mpr (Or.inr h))
        rcases hq2 with rfl | hq'
        · exact hplen
        · exact hrest q hq'
      · have hplen2 : p.2.length = 2 := by omega
        have hrestlen : ((rest.map Prod.snd).flatten).length = rest.length := by
          omega
        refine ⟨[], p, rest, rfl, hplen2, ?_⟩
        intro q hq
        exact all_singleton rest
          (fun r hr => h1 r (List.mem_cons_of_mem p hr)) hrestlen q
          (by simpa using hq)

/-- C8: for a medoid set of size `n - 1` (distinct in-range indices over an
n×n non-negative rational matrix), the clustering has exactly one cluster
with exactly 2 points — a medoid together with the single non-medoid point —
and every other cluster is the singleton of its own medoid. -/
theorem associate_k_eq_n_sub_one (M : List (List ℚ)) (n : Nat)
    (medoids : List Nat) (hsq1 : M.length = n)
    (hsq2 : ∀ row ∈ M, row.length = n)
    (hnonneg : ∀ row ∈ M, ∀ d ∈ row, 0 ≤ d)
    (hne : medoids ≠ []) (hnd : medoids.Nodup)
    (hlt : ∀ m ∈ medoids, m < n) (hlen : medoids.length + 1 = n) :
    ∃ cl cost m₀ q, associateMedoidsToClosestPoint M n medoids =
        some (cl, cost) ∧
      m₀ ∈ medoids ∧ q < n ∧ q ∉ medoids ∧
      mapGet cl m₀ = some [m₀, q] ∧
      (∀ m ∈ medoids, m ≠ m₀ → mapGet cl m = some [m]) := by
  obtain ⟨st, hloop, inv, hcount, hperm, hassoc⟩ :=
    associate_spec M n medoids hne hnd hlt
  have hkeysnd : (st.clusters.map Prod.fst).Nodup := by
    rw [inv.keysClusters]; exact hnd
  have hjoinperm : ((st.clusters.map Prod.snd).flatten).Perm (List.range n) :=
    inv.joinPerm.trans hperm
  have hjoinnodup : ((st.clusters.map Prod.snd).flatten).Nodup :=
    hjoinperm.nodup_iff.mpr (List.nodup_range n)
  have hcllen : st.clusters.length = medoids.length := by
    have := congrArg List.length inv.keysClusters
    simpa using this
  have hentry : ∀ p ∈ st.clusters, ∃ rest, p.2 = p.1 :: rest := by
    intro p hp
    have hm : p.1 ∈ medoids := by
      rw [← inv.keysClusters]
      exact List.mem_map_of_mem Prod.fst hp
    obtain ⟨rest, hget⟩ := inv.headCluster p.1 hm
    have hget2 : mapGet st.clusters p.1 = some p.2 := mapGet_of_mem hkeysnd hp
    rw [hget2] at hget
    exact ⟨rest, Option.some.inj hget⟩
  have h1 : ∀ p ∈ st.clusters, 1 ≤ p.2.length := by
    intro p hp
    obtain ⟨rest, hrest⟩ := hentry p hp
    rw [hrest]
    simp
  have h2 : ((st.clusters.map Prod.snd).flatten).length = st.clusters.length + 1 := by
    have := hjoinperm.length_eq
    simp only [List.length_range] at this
    omega
  obtain ⟨l₁, p₀, l₂, hdec, hp₀len, hones⟩ := exists_two_entry st.clusters h1 h2
  have hp₀cl : p₀ ∈ st.clusters := by
    rw [hdec]
    exact List.mem_append.mpr (Or.inr (List.mem_cons_self _ _))
  have hm₀ : p₀.1 ∈ medoids := by
    rw [← inv.keysClusters]
    exact List.mem_map_of_mem Prod.fst hp₀cl
  obtain ⟨rest₀, hrest₀⟩ := hentry p₀ hp₀cl
  have hrlen : rest₀.length = 1 := by
    have := hp₀len
    rw [hrest₀] at this
    simpa using this
  obtain ⟨q, hq⟩ := List.length_eq_one.mp hrlen
  have hp₀2 : p₀.2 = [p₀.1, q] := by rw [hrest₀, hq]
  have hqjoin : q ∈ (st.clusters.map Prod.snd).flatten := by
    refine List.mem_flatten.mpr ⟨p₀.2, List.mem_map_of_mem Prod.snd hp₀cl, ?_⟩
    rw [hp₀2]
    simp
  have hqn : q < n := by
    have := hjoinperm.mem_iff.mp hqjoin
    simpa using this
  have hjoin_eq : (st.clusters.map Prod.snd).flatten =
      (l₁.map Prod.snd).flatten ++ (p₀.2 ++ (l₂.map Prod.snd).flatten) := by
    rw [hdec]
    simp
  rw [hjoin_eq] at hjoinnodup
  obtain ⟨hnd₁, hnd₂₃, hdisj₁⟩ := List.nodup_append.mp hjoinnodup
  obtain ⟨hndp₀, hndl₂, hdisj₂⟩ := List.nodup_append.mp hnd₂₃
  have hqm₀ : q ≠ p₀.1 := by
    rw [hp₀2] at hndp₀
    intro h
    rw [h] at hndp₀
    simp at hndp₀
  have hqnotmed : q ∉ medoids := by
    intro hqm
    obtain ⟨rq, hgetq⟩ := inv.headCluster q hqm
    have hqcl : ((q, q :: rq) : Nat × List Nat) ∈ st.clusters :=
      mem_of_mapGet hgetq
    rw [hdec] at hqcl
    have hqp₀2 : q ∈ p₀.2 := by
      rw [hp₀2]
      simp
    rcases List.mem_append.mp hqcl with hin | hin
    · exact hdisj₁
        (List.mem_flatten.mpr ⟨q :: rq, List.mem_map_of_mem Prod.snd hin,
          List.mem_cons_self _ _⟩)
        (List.mem_append.mpr (Or.inl hqp₀2))
    · rcases List.mem_cons.mp hin with heq | hin'
      · exact hqm₀ (by rw [← heq])
      · exact hdisj₂ hqp₀2
          (List.mem_flatten.mpr ⟨q :: rq, List.mem_map_of_mem Prod.snd hin',
            List.mem_cons_self _ _⟩)
  refine ⟨st.clusters, configCost st, p₀.1, q, hassoc, hm₀, hqn, hqnotmed, ?_, ?_⟩
  · have := mapGet_of_mem hkeysnd hp₀cl
    rw [hp₀2] at this
    exact this
  · intro m hm hmm₀
    have hmk : m ∈ st.clusters.map Prod.fst := by
      rw [inv.keysClusters]
      exact hm
    obtain ⟨e, hecl, he1⟩ := List.mem_map.mp hmk
    obtain ⟨re, hre⟩ := hentry e hecl
    have hene : e ≠ p₀ := by
      intro h
      exact hmm₀ (by rw [← he1, h])
    have hein : e ∈ l₁ ++ l₂ := by
      rw [hdec] at hecl
      rcases List.mem_append.mp hecl with hin | hin
      · exact List.mem_append.mpr (Or.inl hin)
      · rcases List.mem_cons.mp hin with heq | hin'
        · exact absurd heq hene
        · exact List.mem_append.mpr (Or.inr hin')
    have helen := hones e hein
    have hre0 : re = [] := by
      rw [hre] at helen
      simpa using helen
    have hget := mapGet_of_mem hkeysnd hecl
    rw [hre, hre0, he1] at hget
    exact hget

/-! ## The seeding window and `initializeMedoids` -/

theorem seedStartIdx_bounds {s : ℚ} (h0 : 0 ≤ s) (hs1 : s < 1) {count : Nat}
    (hc : 1 ≤ count) :
    0 ≤ seedStartIdx s count ∧ seedStartIdx s count ≤ (count : Int) - 1 := by
  constructor
  · exact Int.floor_nonneg.mpr (mul_nonneg h0 (Nat.cast_nonneg count))
  · have hcpos : (0 : ℚ) < (count : ℚ) := by
      have : (1 : ℚ) ≤ (count : ℚ) := by exact_mod_cast hc
      linarith
    have h2 : s * (count : ℚ) < (((count : Int)) : ℚ) := by
      push_cast
      calc s * (count : ℚ) < 1 * (count : ℚ) :=
            mul_lt_mul_of_pos_right hs1 hcpos
        _ = (count : ℚ) := one_mul _
    have h3 := Int.floor_lt.mpr h2
    rw [seedStartIdx]
    omega

theorem seedEndIdx_bounds {e : ℚ} (he0 : 0 ≤ e) (he1 : e ≤ 1) {count : Nat}
    (hc : 1 ≤ count) :
    0 ≤ seedEndIdx e count ∧ seedEndIdx e count ≤ (count : Int) - 1 := by
  have hcm1 : (0 : ℚ) ≤ (count : ℚ) - 1 := by
    have : (1 : ℚ) ≤ (count : ℚ) := by exact_mod_cast hc
    linarith
  constructor
  · rw [seedEndIdx, round_eq]
    apply Int.floor_nonneg.mpr
    have := mul_nonneg he0 hcm1
    linarith
  · rw [seedEndIdx, round_eq]
    have h1 : e * ((count : ℚ) - 1) ≤ (count : ℚ) - 1 :=
      mul_le_of_le_one_left hcm1 he1
    have h2 : e * ((count : ℚ) - 1) + 1 / 2 < (((count : Int)) : ℚ) := by
      push_cast
      linarith
    have h3 := Int.floor_lt.mpr h2
    omega

theorem initRound_spec (M : List (List ℚ)) (n : Nat) (s e : ℚ)
    (medoids : List Nat) (r : Int) (h0 : 0 ≤ s) (hse : s < e) (he1 : e ≤ 1)
    (hnd : medoids.Nodup) (hlt : ∀ x ∈ medoids, x < n)
    (hlen : medoids.length < n) :
    ∃ p, p < n ∧ p ∉ medoids ∧
      initRound M n s e medoids r = some (medoids ++ [p]) := by
  have hs1 : s < 1 := lt_of_lt_of_le hse he1
  have he0 : 0 ≤ e := le_of_lt (lt_of_le_of_lt h0 hse)
  simp only [initRound]
  set base := (List.range n).filter (fun p => p ∉ medoids) with hbase
  set distances := base.map
    (fun p => (p, ((getClosestMedoid M medoids p).2).getD 0)) with hdist
  set sorted := sortByDistance distances with hsorted
  have hbne : base ≠ [] := eligible_ne_nil n medoids hlen
  have hdlen : distances.length = base.length := by
    rw [hdist, List.length_map]
  have hc1 : 1 ≤ distances.length := by
    rw [hdlen]
    exact List.length_pos.mpr hbne
  have hperm : sorted.Perm distances := by
    rw [hsorted, sortByDistance]
    exact List.mergeSort_perm _ _
  have hslen : sorted.length = distances.length := hperm.length_eq
  obtain ⟨hs0, hsle⟩ := seedStartIdx_bounds h0 hs1 hc1
  obtain ⟨he0b, hele⟩ := seedEndIdx_bounds he0 he1 hc1
  set idx := jsRandom (seedStartIdx s distances.length)
    (seedEndIdx e distances.length) r with hidx
  obtain ⟨hjlo, hjhi⟩ := jsRandom_bounds (seedStartIdx s distances.length)
    (seedEndIdx e distances.length) r
  have hidx0 : 0 ≤ idx := le_trans (le_min hs0 he0b) hjlo
  have hidxlt : idx < sorted.length := by
    have : idx ≤ (distances.length : Int) - 1 := le_trans hjhi (max_le hsle hele)
    rw [hslen]
    omega
  obtain ⟨pr, hat, hmem⟩ := listAt_eq_some hidx0 hidxlt
  have hmemd : pr ∈ distances := hperm.mem_iff.mp hmem
  obtain ⟨p, hpbase, hppr⟩ := List.mem_map.mp (hdist ▸ hmemd)
  have hpn : p < n := by
    have := List.mem_filter.mp (hbase ▸ hpbase)
    simpa using this.1
  have hpnot : p ∉ medoids := by
    have := List.mem_filter.mp (hbase ▸ hpbase)
    simpa using this.2
  refine ⟨p, hpn, hpnot, ?_⟩
  rw [hat]
  rw [Option.map_some']
  rw [← hppr]
  simp only
  rw [jsAdd_eq_of_not_mem hpnot]

theorem initLoop_spec (M : List (List ℚ)) (n : Nat) (k : Int) (s e : ℚ)
    (oracle : Nat → Int) (h0 : 0 ≤ s) (hse : s < e) (he1 : e ≤ 1)
    (hkn : k ≤ (n : Int)) :
    ∀ (fuel : Nat) (medoids : List Nat), medoids.Nodup →
    (∀ x ∈ medoids, x < n) → 1 ≤ medoids.length →
    (medoids.length : Int) ≤ k → k.toNat - medoids.length < fuel →
    ∃ ms, initLoop M n k s e oracle fuel medoids = some ms ∧
      ms.Nodup ∧ (∀ x ∈ ms, x < n) ∧ (ms.length : Int) = k ∧
      1 ≤ ms.length := by
  intro fuel
  induction fuel with
  | zero => intro medoids _ _ _ _ h; omega
  | succ f ih =>
      intro medoids hnd hlt hone hlek hfuel
      rw [initLoop]
      by_cases hk : (medoids.length : Int) = k
      · rw [if_pos hk]
        exact ⟨medoids, rfl, hnd, hlt, hk, hone⟩
      · rw [if_neg hk]
        have hltk : (medoids.length : Int) < k := lt_of_le_of_ne hlek hk
        have hlenn : medoids.length < n := by omega
        obtain ⟨p, hpn, hpnot, hround⟩ :=
          initRound_spec M n s e medoids (oracle medoids.length)
            h0 hse he1 hnd hlt hlenn
        rw [hround]
        apply ih (medoids ++ [p])
        · simp [List.nodup_append, hnd, hpnot]
        · intro x hx
          rcases List.mem_append.mp hx with hx | hx
          · exact hlt x hx
          · simp only [List.mem_singleton] at hx
            exact hx ▸ hpn
        · simp
        · simp only [List.length_append, List.length_singleton]
          push_cast
          omega
        · simp only [List.length_append, List.length_singleton]
          omega

theorem initializeMedoids_spec (M : List (List ℚ)) (n : Nat) (k : Int)
    (s e : ℚ) (oracle : Nat → Int) (h0 : 0 ≤ s) (hse : s < e) (he1 : e ≤ 1)
    (hk1 : 1 ≤ k) (hkn : k ≤ (n : Int)) :
    ∃ ms, initializeMedoids M n k s e oracle = some ms ∧ ms.Nodup ∧
      (∀ x ∈ ms, x < n) ∧ (ms.length : Int) = k ∧ 1 ≤ ms.length := by
  have hn1 : 1 ≤ n := by omega
  rw [initializeMedoids]
  have hfirst : (jsRandom 0 ((n : Int) - 1) (oracle 0)).toNat < n := by
    obtain ⟨hlo, hhi⟩ := jsRandom_bounds 0 ((n : Int) - 1) (oracle 0)
    have hmax : max 0 ((n : Int) - 1) = (n : Int) - 1 := by
      apply max_eq_right
      omega
    rw [hmax] at hhi
    omega
  have hadd : jsAdd [] (jsRandom 0 ((n : Int) - 1) (oracle 0)).toNat =
      [(jsRandom 0 ((n : Int) - 1) (oracle 0)).toNat] :=
    jsAdd_eq_of_not_mem (by simp)
  rw [hadd]
  apply initLoop_spec M n k s e oracle h0 hse he1 hkn
  · simp
  · intro x hx
    simp only [List.mem_singleton] at hx
    exact hx ▸ hfirst
  · simp
  · simp only [List.length_singleton]
    push_cast
    omega
  · simp only [List.length_singleton]
    omega

/-- C9: under the constructor precondition `0 ≤ startProb < endProb ≤ 1`,
every seeding round with at least one remaining non-medoid point computes
`startIdx` and `endIdx` inside `[0, count-1]`, so the random pick into the
sorted distance list is an in-bounds access, and `initializeMedoids` (for any
`1 ≤ k ≤ n` and any oracle) returns exactly `k` distinct in-range indices
without failing. -/
theorem seeding_window_in_bounds (s e : ℚ) (h0 : 0 ≤ s) (hse : s < e)
    (he1 : e ≤ 1) :
    (∀ count : Nat, 1 ≤ count →
      (0 ≤ seedStartIdx s count ∧ seedStartIdx s count ≤ (count : Int) - 1) ∧
      (0 ≤ seedEndIdx e count ∧ seedEndIdx e count ≤ (count : Int) - 1) ∧
      (∀ r : Int,
        0 ≤ jsRandom (seedStartIdx s count) (seedEndIdx e count) r ∧
        jsRandom (seedStartIdx s count) (seedEndIdx e count) r ≤
          (count : Int) - 1)) ∧
    (∀ (M : List (List ℚ)) (n : Nat) (k : Int) (oracle : Nat → Int),
      1 ≤ k → k ≤ (n : Int) →
      ∃ ms, initializeMedoids M n k s e oracle = some ms ∧ ms.Nodup ∧
        (∀ x ∈ ms, x < n) ∧ (ms.length : Int) = k) := by
  have hs1 : s < 1 := lt_of_lt_of_le hse he1
  have he0 : 0 ≤ e := le_of_lt (lt_of_le_of_lt h0 hse)
  constructor
  · intro count hc
    obtain ⟨ha, hb⟩ := seedStartIdx_bounds h0 hs1 hc
    obtain ⟨hc1, hc2⟩ := seedEndIdx_bounds he0 he1 hc
    refine ⟨⟨ha, hb⟩, ⟨hc1, hc2⟩, ?_⟩
    intro r
    obtain ⟨hlo, hhi⟩ :=
      jsRandom_bounds (seedStartIdx s count) (seedEndIdx e count) r
    exact ⟨le_trans (le_min ha hc1) hlo, le_trans hhi (max_le hb hc2)⟩
  · intro M n k oracle hk1 hkn
    obtain ⟨ms, hinit, hnd, hlt, hlen, _⟩ :=
      initializeMedoids_spec M n k s e oracle h0 hse he1 hk1 hkn
    exact ⟨ms, hinit, hnd, hlt, hlen⟩

/-! ## The refinement loop of `run` -/

/-- Everything `run`'s inner loop guarantees about one recorded candidate
evaluation: how the candidate was formed from the current medoid set, that
the enumerated non-medoid is new to it, and the accept/reject cost
bookkeeping of lines 182–187. -/
structure EntryOK (n : Nat) (e : SwapEntry) : Prop where
  formed : e.candidate = jsAdd (jsDelete e.curBefore e.medoid) e.nonMedoid
  nonMedoidNew : e.nonMedoid ∉ e.curBefore
  nonMedoidLt : e.nonMedoid < n
  curNodup : e.curBefore.Nodup
  acceptIff : e.accepted = true ↔ e.newCost < e.costBefore
  afterEq : e.costAfter = (if e.accepted = true then e.newCost else e.costBefore)

/-- `TraceChain c tr c'` : the recorded cost fields of `tr` chain from `c`
to `c'` — each entry starts at the cost the previous one ended with. -/
def TraceChain : ℚ → List SwapEntry → ℚ → Prop
  | c, [], c' => c = c'
  | c, e :: es, c' => e.costBefore = c ∧ TraceChain e.costAfter es c'

theorem traceChain_append {c₁ c₂ c₃ : ℚ} {t₁ t₂ : List SwapEntry}
    (h₁ : TraceChain c₁ t₁ c₂) (h₂ : TraceChain c₂ t₂ c₃) :
    TraceChain c₁ (t₁ ++ t₂) c₃ := by
  induction t₁ generalizing c₁ with
  | nil =>
      rw [TraceChain] at h₁
      rw [List.nil_append, h₁]
      exact h₂
  | cons e es ih =>
      obtain ⟨hb, hrest⟩ := h₁
      exact ⟨hb, ih hrest⟩

/-- The running invariant on `run`'s loop state: the current medoid set is a
non-empty duplicate-free set of in-range indices. -/
structure RunInv (n : Nat) (st : RunState) : Prop where
  nodup : st.medoids.Nodup
  ne : st.medoids ≠ []
  lt : ∀ x ∈ st.medoids, x < n

theorem swapStep_spec {M : List (List ℚ)} {n : Nat} (medoid : Nat)
    {st : RunState} {nonMedoid : Nat} (inv : RunInv n st)
    (hnm : nonMedoid < n) (hnmem : nonMedoid ∉ st.medoids) :
    ∃ st' e, swapStep M n medoid st nonMedoid = some st' ∧
      RunInv n st' ∧ st'.trace = st.trace ++ [e] ∧ EntryOK n e ∧
      e.curBefore = st.medoids ∧ e.medoid = medoid ∧
      e.nonMedoid = nonMedoid ∧ e.costBefore = st.currentCost ∧
      e.costAfter = st'.currentCost ∧
      st'.medoids = (if e.accepted = true then e.candidate else st.medoids) := by
  set cand := jsAdd (jsDelete st.medoids medoid) nonMedoid with hcand
  have hcne : cand ≠ [] := by
    have : nonMedoid ∈ cand := mem_jsAdd.mpr (Or.inr rfl)
    exact List.ne_nil_of_mem this
  have hcnd : cand.Nodup := jsAdd_nodup (jsDelete_nodup inv.nodup)
  have hclt : ∀ x ∈ cand, x < n := by
    intro x hx
    rcases mem_jsAdd.mp hx with hx | rfl
    · exact inv.lt x (mem_jsDelete.mp hx).1
    · exact hnm
  obtain ⟨stA, _, _, _, _, hassoc⟩ := associate_spec M n cand hcne hcnd hclt
  by_cases hc : configCost stA < st.currentCost
  · refine ⟨{ medoids := cand
              clusters := some stA.clusters
              currentCost := configCost stA
              costChange := some (st.currentCost - configCost stA)
              trace := st.trace ++
                [⟨st.medoids, medoid, nonMedoid, cand, st.currentCost,
                  configCost stA, true, configCost stA⟩] },
      ⟨st.medoids, medoid, nonMedoid, cand, st.currentCost, configCost stA,
        true, configCost stA⟩, ?_, ?_, rfl, ?_, rfl, rfl, rfl, rfl, rfl, ?_⟩
    · simp only [swapStep, ← hcand, hassoc, if_pos hc]
    · exact ⟨hcnd, hcne, hclt⟩
    · exact ⟨rfl, hnmem, hnm, inv.nodup, by simpa using hc, by simp⟩
    · simp
  · refine ⟨{ st with trace := st.trace ++
                [⟨st.medoids, medoid, nonMedoid, cand, st.currentCost,
                  configCost stA, false, st.currentCost⟩] },
      ⟨st.medoids, medoid, nonMedoid, cand, st.currentCost, configCost stA,
        false, st.currentCost⟩, ?_, ?_, rfl, ?_, rfl, rfl, rfl, rfl, rfl, ?_⟩
    · simp only [swapStep, ← hcand, hassoc, if_neg hc]
    · exact ⟨inv.nodup, inv.ne, inv.lt⟩
    · refine ⟨rfl, hnmem, hnm, inv.nodup, by simpa using hc, by simp⟩
    · simp

theorem nonMedoidFold_spec {M : List (List ℚ)} {n : Nat} {medoid : Nat} :
    ∀ (ps : List Nat) (st : RunState), RunInv n st → ps.Nodup →
    (∀ p ∈ ps, p < n ∧ p ∉ st.medoids) →
    ∃ st', nonMedoidFold M n medoid st ps = some st' ∧ RunInv n st' ∧
      ∃ suffix, st'.trace = st.trace ++ suffix ∧
        TraceChain st.currentCost suffix st'.currentCost ∧
        ∀ e ∈ suffix, EntryOK n e := by
  intro ps
  induction ps with
  | nil =>
      intro st inv _ _
      exact ⟨st, rfl, inv, [], by simp, rfl, by simp⟩
  | cons p rest ih =>
      intro st inv hnd hps
      obtain ⟨hpn, hpnot⟩ := hps p (List.mem_cons_self p rest)
      obtain ⟨st₁, e, hstep, inv₁, htrace₁, hok, hcur, _, hnme, hcb, hca, hmeds⟩ :=
        swapStep_spec (M := M) medoid inv hpn hpnot
      have hrest : ∀ q ∈ rest, q < n ∧ q ∉ st₁.medoids := by
        intro q hq
        refine ⟨(hps q (List.mem_cons_of_mem p hq)).1, ?_⟩
        rw [hmeds]
        split
        · rw [hok.formed, hcur, hnme]
          intro hqc
          rcases mem_jsAdd.mp hqc with hqc | rfl
          · exact (hps q (List.mem_cons_of_mem p hq)).2 (mem_jsDelete.mp hqc).1
          · exact (List.nodup_cons.mp hnd).1 hq
        · exact (hps q (List.mem_cons_of_mem p hq)).2
      obtain ⟨st', hfold, inv', suffix, htr', hchain', hentries'⟩ :=
        ih st₁ inv₁ (List.nodup_cons.mp hnd).2 hrest
      refine ⟨st', ?_, inv', e :: suffix, ?_, ?_, ?_⟩
      · rw [nonMedoidFold, hstep]
        exact hfold
      · rw [htr', htrace₁]
        simp
      · exact ⟨hcb, by rw [hca]; exact hchain'⟩
      · intro e' he'
        rcases List.mem_cons.mp he' with rfl | he'
        · exact hok
        · exact hentries' e' he'

theorem medoidStep_spec {M : List (List ℚ)} {n : Nat} {st : RunState}
    (medoid : Nat) (inv : RunInv n st) :
    ∃ st', medoidStep M n st medoid = some st' ∧ RunInv n st' ∧
      ∃ suffix, st'.trace = st.trace ++ suffix ∧
        TraceChain st.currentCost suffix st'.currentCost ∧
        ∀ e ∈ suffix, EntryOK n e := by
  apply nonMedoidFold_spec (getNonMedoids n st.medoids) st inv
  · exact (List.nodup_range n).filter _
  · intro p hp
    have := List.mem_filter.mp hp
    constructor
    · simpa using this.1
    · simpa using this.2

theorem medoidFold_spec {M : List (List ℚ)} {n : Nat} :
    ∀ (ms : List Nat) (st : RunState), RunInv n st →
    ∃ st', medoidFold M n st ms = some st' ∧ RunInv n st' ∧
      ∃ suffix, st'.trace = st.trace ++ suffix ∧
        TraceChain st.currentCost suffix st'.currentCost ∧
        ∀ e ∈ suffix, EntryOK n e := by
  intro ms
  induction ms with
  | nil =>
      intro st inv
      exact ⟨st, rfl, inv, [], by simp, rfl, by simp⟩
  | cons m rest ih =>
      intro st inv
      obtain ⟨st₁, hstep, inv₁, s₁, htr₁, hch₁, hen₁⟩ :=
        medoidStep_spec (M := M) m inv
      obtain ⟨st', hfold, inv', s₂, htr₂, hch₂, hen₂⟩ := ih st₁ inv₁
      refine ⟨st', ?_, inv', s₁ ++ s₂, ?_, traceChain_append hch₁ hch₂, ?_⟩
      · rw [medoidFold, hstep]
        exact hfold
      · rw [htr₂, htr₁, List.append_assoc]
      · intro e he
        rcases List.mem_append.mp he with he | he
        · exact hen₁ e he
        · exact hen₂ e he

theorem runPass_spec {M : List (List ℚ)} {n : Nat} {st : RunState}
    (inv : RunInv n st) :
    ∃ st', runPass M n st = some st' ∧ RunInv n st' ∧
      ∃ suffix, st'.trace = st.trace ++ suffix ∧
        TraceChain st.currentCost suffix st'.currentCost ∧
        ∀ e ∈ suffix, EntryOK n e := by
  have inv₀ : RunInv n { st with costChange := some 0 } :=
    ⟨inv.nodup, inv.ne, inv.lt⟩
  obtain ⟨st', hfold, inv', suffix, htr, hch, hen⟩ :=
    medoidFold_spec (M := M) st.medoids { st with costChange := some 0 } inv₀
  exact ⟨st', hfold, inv', suffix, htr, hch, hen⟩

theorem runLoop_spec {M : List (List ℚ)} {n : Nat} (tolerance : ℚ) :
    ∀ (rem passes : Nat) (st : RunState), RunInv n st →
    ∃ st' passes', runLoop M n tolerance rem passes st = some (st', passes') ∧
      RunInv n st' ∧ passes' ≤ passes + rem ∧
      ∃ suffix, st'.trace = st.trace ++ suffix ∧
        TraceChain st.currentCost suffix st'.currentCost ∧
        ∀ e ∈ suffix, EntryOK n e := by
  intro rem
  induction rem with
  | zero =>
      intro passes st inv
      exact ⟨st, passes, rfl, inv, le_refl _, [], by simp, rfl, by simp⟩
  | succ f ih =>
      intro passes st inv
      rw [runLoop]
      by_cases hcc : ccGtTol st.costChange tolerance = true
      · rw [if_pos hcc]
        obtain ⟨st₁, hpass, inv₁, s₁, htr₁, hch₁, hen₁⟩ := runPass_spec (M := M) inv
        rw [hpass]
        obtain ⟨st', passes', hloop, inv', hple, s₂, htr₂, hch₂, hen₂⟩ :=
          ih (passes + 1) st₁ inv₁
        refine ⟨st', passes', hloop, inv', by omega, s₁ ++ s₂, ?_,
          traceChain_append hch₁ hch₂, ?_⟩
        · rw [htr₂, htr₁, List.append_assoc]
        · intro e he
          rcases List.mem_append.mp he with he | he
          · exact hen₁ e he
          · exact hen₂ e he
      · rw [if_neg hcc]
        exact ⟨st, passes, rfl, inv, by omega, [], by simp, rfl, by simp⟩

/-- Master specification of `run`: for a validly constructed engine
(`0 < k ≤ n`, valid probability window) and any oracle, `run` returns,
performs at most `maxIterations` passes, and its ghost trace chains the
recorded cost from the initial configuration cost to the final one with
every entry obeying the accept/reject discipline. -/
theorem run_spec (eng : Engine) (oracle : Nat → Int) (maxIterations : Nat)
    (tolerance : ℚ) (hp0 : 0 ≤ eng.startProb)
    (hpe : eng.startProb < eng.endProb) (hp1 : eng.endProb ≤ 1)
    (hk1 : 1 ≤ eng.nClusters) (hkn : eng.nClusters ≤ (eng.nPoints : Int)) :
    ∃ res, run eng oracle maxIterations tolerance = some res ∧
      res.passes ≤ maxIterations ∧
      (∃ c₀, TraceChain c₀ res.trace res.finalCost) ∧
      (∀ e ∈ res.trace, EntryOK eng.nPoints e) := by
  obtain ⟨ms, hinit, hnd, hlt, hlen, hone⟩ :=
    initializeMedoids_spec eng.distanceMatrix eng.nPoints eng.nClusters
      eng.startProb eng.endProb oracle hp0 hpe hp1 hk1 hkn
  have hne : ms ≠ [] := by
    intro h
    rw [h] at hone
    simp at hone
  obtain ⟨stA, _, _, _, _, hassoc⟩ :=
    associate_spec eng.distanceMatrix eng.nPoints ms hne hnd hlt
  set st₀ : RunState :=
    { medoids := ms
      clusters := eng.clusters
      currentCost := configCost stA
      costChange := none
      trace := [] } with hst₀
  obtain ⟨st', passes', hloop, inv', hple, suffix, htr, hch, hen⟩ :=
    runLoop_spec (M := eng.distanceMatrix) tolerance
      maxIterations 0 st₀ ⟨hnd, hne, hlt⟩
  refine ⟨{ engine := { eng with medoids := st'.medoids
                                 clusters := st'.clusters }
            passes := passes'
            finalCost := st'.currentCost
            trace := st'.trace }, ?_, ?_, ?_, ?_⟩
  · simp only [run, hinit, hassoc, ← hst₀, hloop]
  · show passes' ≤ maxIterations
    omega
  · refine ⟨configCost stA, ?_⟩
    simp only
    rw [htr]
    simpa using hch
  · intro e he
    simp only at he
    rw [htr] at he
    simpa using hen e he

/-! ## Constructor validation -/

theorem kmedoidsNew_eq_ok_iff {M : List (List ℚ)} {k : Int} {s e : ℚ}
    {eng : Engine} :
    kmedoidsNew M k s e = Except.ok eng ↔
      (0 ≤ s ∧ s < e ∧ e ≤ 1) ∧ k < (M.length : Int) ∧
      eng = { distanceMatrix := M, nClusters := k, nPoints := M.length,
              nRange := List.range M.length, startProb := s, endProb := e,
              clusters := none, medoids := [] } := by
  rw [kmedoidsNew]
  by_cases h1 : 0 ≤ s ∧ s < e ∧ e ≤ 1
  · rw [if_neg (not_not_intro h1)]
    by_cases h2 : k < (M.length : Int)
    · rw [if_neg (not_not_intro h2)]
      constructor
      · intro h
        exact ⟨h1, h2, (Except.ok.inj h).symm⟩
      · rintro ⟨_, _, rfl⟩
        rfl
    · rw [if_pos h2]
      constructor
      · intro h
        exact Except.noConfusion h
      · rintro ⟨_, hk, _⟩
        exact absurd hk h2
  · rw [if_pos h1]
    constructor
    · intro h
      exact Except.noConfusion h
    · rintro ⟨ha, _, _⟩
      exact absurd ha h1

/-- C6: construction fails (throws) iff a parameter is out of range —
`startProb ≥ endProb`, or `startProb < 0`, or `endProb > 1`, or
`k ≥ n` where `n` is the matrix row count — and on success the engine
stores the matrix, `k`, `n = row count`, the index range `0..n-1`, the
probability window, with the clustering unset and the medoid set empty. -/
theorem constructor_validation (M : List (List ℚ)) (k : Int) (s e : ℚ) :
    ((∃ msg, kmedoidsNew M k s e = Except.error msg) ↔
      (e ≤ s ∨ s < 0 ∨ 1 < e ∨ (M.length : Int) ≤ k)) ∧
    (∀ eng, kmedoidsNew M k s e = Except.ok eng →
      eng.distanceMatrix = M ∧ eng.nClusters = k ∧ eng.nPoints = M.length ∧
      eng.nRange = List.range M.length ∧ eng.startProb = s ∧
      eng.endProb = e ∧ eng.clusters = none ∧ eng.medoids = []) := by
  constructor
  · constructor
    · rintro ⟨msg, hmsg⟩
      by_contra hcon
      push_neg at hcon
      obtain ⟨hse, hs0, he1, hkn⟩ := hcon
      have hok : kmedoidsNew M k s e = Except.ok
          { distanceMatrix := M, nClusters := k, nPoints := M.length,
            nRange := List.range M.length, startProb := s, endProb := e,
            clusters := none, medoids := [] } :=
        kmedoidsNew_eq_ok_iff.mpr ⟨⟨hs0, hse, he1⟩, hkn, rfl⟩
      rw [hok] at hmsg
      exact Except.noConfusion hmsg
    · intro h
      rcases hres : kmedoidsNew M k s e with msg | eng
      · exact ⟨msg, rfl⟩
      · exfalso
        obtain ⟨⟨hs0, hse, he1⟩, hkn, _⟩ := kmedoidsNew_eq_ok_iff.mp hres
        rcases h with h | h | h | h
        · exact absurd hse (not_lt.mpr h)
        · exact absurd hs0 (not_le.mpr h)
        · exact absurd he1 (not_le.mpr h)
        · exact absurd hkn (not_lt.mpr h)
  · intro eng hok
    obtain ⟨_, _, rfl⟩ := kmedoidsNew_eq_ok_iff.mp hok
    exact ⟨rfl, rfl, rfl, rfl, rfl, rfl, rfl, rfl⟩

/-- C10: the constructor does not require the cluster count to be positive:
for any matrix with at least one row and a valid probability window,
construction with `nClusters ≤ 0` (zero or any negative integer) succeeds. -/
theorem constructor_accepts_nonpositive_k (M : List (List ℚ)) (k : Int)
    (s e : ℚ) (hk : k ≤ 0) (hM : 1 ≤ M.length) (h0 : 0 ≤ s) (hse : s < e)
    (he1 : e ≤ 1) : ∃ eng, kmedoidsNew M k s e = Except.ok eng := by
  refine ⟨_, kmedoidsNew_eq_ok_iff.mpr ⟨⟨h0, hse, he1⟩, ?_, rfl⟩⟩
  have : (1 : Int) ≤ (M.length : Int) := by exact_mod_cast hM
  omega

/-! ## The claims about `run` -/

/-- C4: for every validly constructed engine (`0 < k < n`, valid window,
n×n non-negative matrix), any `maxIterations`, any `tolerance ≥ 0` and any
randomness, `run` terminates and performs at most `maxIterations` passes of
its outer refinement loop. -/
theorem run_terminates (M : List (List ℚ)) (n : Nat) (k : Int) (s e : ℚ)
    (eng : Engine) (oracle : Nat → Int) (maxIterations : Nat) (tolerance : ℚ)
    (hn : M.length = n) (hsq : ∀ row ∈ M, row.length = n)
    (hnonneg : ∀ row ∈ M, ∀ d ∈ row, 0 ≤ d)
    (hok : kmedoidsNew M k s e = Except.ok eng) (hk : 0 < k)
    (htol : 0 ≤ tolerance) :
    ∃ res, run eng oracle maxIterations tolerance = some res ∧
      res.passes ≤ maxIterations := by
  obtain ⟨⟨h0, hse, he1⟩, hkn, rfl⟩ := kmedoidsNew_eq_ok_iff.mp hok
  obtain ⟨res, hrun, hple, _, _⟩ :=
    run_spec
      { distanceMatrix := M
        nClusters := k
        nPoints := M.length
        nRange := List.range M.length
        startProb := s
        endProb := e
        clusters := none
        medoids := [] }
      oracle maxIterations tolerance h0 hse he1 hk (le_of_lt hkn)
  exact ⟨res, hrun, hple⟩

/-- C5: across the refinement loop the recorded current cost is
non-increasing over time: the ghost trace chains the cost from the initial
configuration cost to the final one, a candidate is accepted exactly when
its cost is strictly below the current cost, every accepted step strictly
decreases the recorded cost, and no step increases it. -/
theorem run_cost_monotone (M : List (List ℚ)) (n : Nat) (k : Int) (s e : ℚ)
    (eng : Engine) (oracle : Nat → Int) (maxIterations : Nat) (tolerance : ℚ)
    (hn : M.length = n) (hsq : ∀ row ∈ M, row.length = n)
    (hnonneg : ∀ row ∈ M, ∀ d ∈ row, 0 ≤ d)
    (hok : kmedoidsNew M k s e = Except.ok eng) (hk : 0 < k) :
    ∃ res, run eng oracle maxIterations tolerance = some res ∧
      (∃ c₀, TraceChain c₀ res.trace res.finalCost) ∧
      (∀ t ∈ res.trace,
        (t.accepted = true ↔ t.newCost < t.costBefore) ∧
        (t.accepted = true → t.costAfter = t.newCost ∧
          t.costAfter < t.costBefore) ∧
        (t.accepted = false → t.costAfter = t.costBefore) ∧
        t.costAfter ≤ t.costBefore) := by
  obtain ⟨⟨h0, hse, he1⟩, hkn, rfl⟩ := kmedoidsNew_eq_ok_iff.mp hok
  obtain ⟨res, hrun, _, hchain, hentries⟩ :=
    run_spec
      { distanceMatrix := M
        nClusters := k
        nPoints := M.length
        nRange := List.range M.length
        startProb := s
        endProb := e
        clusters := none
        medoids := [] }
      oracle maxIterations tolerance h0 hse he1 hk (le_of_lt hkn)
  refine ⟨res, hrun, hchain, ?_⟩
  intro t ht
  have hok' := hentries t ht
  refine ⟨hok'.acceptIff, ?_, ?_, ?_⟩
  · intro hacc
    have hlt := hok'.acceptIff.mp hacc
    rw [hok'.afterEq, if_pos hacc]
    exact ⟨rfl, hlt⟩
  · intro hacc
    rw [hok'.afterEq, hacc]
    simp
  · rw [hok'.afterEq]
    by_cases hacc : t.accepted = true
    · rw [if_pos hacc]
      exact le_of_lt (hok'.acceptIff.mp hacc)
    · rw [if_neg hacc]

/-- C3 (amended): every candidate `run` evaluates is formed from the medoid
set current at evaluation time by the JS set operations
`delete(medoid); add(nonMedoid)` for the enumerated pair, and the enumerated
non-medoid is never in the current set; hence the candidate has exactly as
many elements as the current set when the enumerated medoid is still current
(in particular `k` before any accepted swap), but one element more when an
accepted swap has already removed that medoid from the current set — so an
evaluated candidate need not have exactly `k` elements. -/
theorem run_candidate_formation (M : List (List ℚ)) (n : Nat) (k : Int)
    (s e : ℚ) (eng : Engine) (oracle : Nat → Int) (maxIterations : Nat)
    (tolerance : ℚ) (hn : M.length = n) (hsq : ∀ row ∈ M, row.length = n)
    (hnonneg : ∀ row ∈ M, ∀ d ∈ row, 0 ≤ d)
    (hok : kmedoidsNew M k s e = Except.ok eng) (hk : 0 < k) :
    ∃ res, run eng oracle maxIterations tolerance = some res ∧
      ∀ t ∈ res.trace,
        t.candidate = jsAdd (jsDelete t.curBefore t.medoid) t.nonMedoid ∧
        t.nonMedoid ∉ t.curBefore ∧ t.curBefore.Nodup ∧ t.candidate.Nodup ∧
        (t.medoid ∈ t.curBefore →
          t.candidate.length = t.curBefore.length) ∧
        (t.medoid ∉ t.curBefore →
          t.candidate.length = t.curBefore.length + 1) := by
  obtain ⟨⟨h0, hse, he1⟩, hkn, rfl⟩ := kmedoidsNew_eq_ok_iff.mp hok
  obtain ⟨res, hrun, _, _, hentries⟩ :=
    run_spec
      { distanceMatrix := M
        nClusters := k
        nPoints := M.length
        nRange := List.range M.length
        startProb := s
        endProb := e
        clusters := none
        medoids := [] }
      oracle maxIterations tolerance h0 hse he1 hk (le_of_lt hkn)
  refine ⟨res, hrun, ?_⟩
  intro t ht
  have hok' := hentries t ht
  have hnotdel : t.nonMedoid ∉ jsDelete t.curBefore t.medoid := by
    intro h
    exact hok'.nonMedoidNew (mem_jsDelete.mp h).1
  have hlen : t.candidate.length =
      (jsDelete t.curBefore t.medoid).length + 1 := by
    rw [hok'.formed]
    exact length_jsAdd_of_not_mem hnotdel
  refine ⟨hok'.formed, hok'.nonMedoidNew, hok'.curNodup, ?_, ?_, ?_⟩
  · rw [hok'.formed]
    exact jsAdd_nodup (jsDelete_nodup hok'.curNodup)
  · intro hmem
    rw [hlen]
    have := length_jsDelete_of_mem hmem hok'.curNodup
    omega
  · intro hmem
    rw [hlen, jsDelete_eq_of_not_mem hmem]

/-! ## Concrete instances -/

/-- A 2-point line matrix. -/
def bugMatrix : List (List ℚ) := [[0, 1], [1, 0]]

/-- The engine the constructor builds from `bugMatrix` with `k = 1` and the
default probability window. -/
def bugEngine : Engine :=
  { distanceMatrix := bugMatrix
    nClusters := 1
    nPoints := 2
    nRange := [0, 1]
    startProb := mkRat 9 10
    endProb := mkRat 99 100
    clusters := none
    medoids := [] }

/-- C1: on the engine built from the 2-point matrix with `k = 1`,
`run(0, 0.01)` performs seeding and initial assignment (the final medoid set
is `[0]`) but leaves the engine's `clusters` field unset (`none`): line 168
destructures the initial clustering into a local variable that is never
stored, so `this.clusters` is only ever written inside the accept branch. -/
theorem run_zero_iterations_leaves_clusters_unset :
    kmedoidsNew bugMatrix 1 (mkRat 9 10) (mkRat 99 100) =
      Except.ok bugEngine ∧
    (run bugEngine (fun _ => 0) 0 (mkRat 1 100)).map
      (fun r => (r.engine.clusters, r.engine.medoids)) =
      some (none, [0]) := by
  constructor
  · with_unfolding_all rfl
  · with_unfolding_all decide

/-- A 3-point line matrix. -/
def cexMatrix : List (List ℚ) := [[0, 1, 2], [1, 0, 1], [2, 1, 0]]

/-- The engine the constructor builds from `cexMatrix` with `k = 1` and the
default probability window. -/
def cexEngine : Engine :=
  { distanceMatrix := cexMatrix
    nClusters := 1
    nPoints := 3
    nRange := [0, 1, 2]
    startProb := mkRat 9 10
    endProb := mkRat 99 100
    clusters := none
    medoids := [] }

/-- C3 (counterexample): on the engine built from the 3-point matrix with
`k = 1` and initial random medoid 0, the refinement loop's first candidate
`[1]` is accepted; the second candidate evaluated in the same inner
enumeration is `[1, 2]` — it has `k + 1 = 2` elements, because
`newMedoids.delete(medoid)` is a no-op once the accepted swap has replaced
the current medoid set — and it is even accepted, leaving the engine with
the 2-element medoid set `[1, 2]` although `nClusters = 1`.  So it is false
that every evaluated (or accepted) candidate has exactly `k` elements. -/
theorem run_candidate_of_size_k_plus_one :
    kmedoidsNew cexMatrix 1 (mkRat 9 10) (mkRat 99 100) =
      Except.ok cexEngine ∧
    cexEngine.nClusters = 1 ∧
    (run cexEngine (fun _ => 0) 1 (mkRat 1 100)).map
      (fun r => r.trace.map (fun t => (t.candidate, t.accepted))) =
      some [([1], true), ([1, 2], true)] ∧
    (run cexEngine (fun _ => 0) 1 (mkRat 1 100)).map
      (fun r => r.engine.medoids) = some [1, 2] := by
  refine ⟨?_, rfl, ?_, ?_⟩
  · with_unfolding_all rfl
  · with_unfolding_all decide
  · with_unfolding_all decide

/-- A second 2-point engine, used to exercise the `run` theorems. -/
def demoEngine2 : Engine :=
  { distanceMatrix := [[0, 1], [1, 0]]
    nClusters := 1
    nPoints := 2
    nRange := [0, 1]
    startProb := mkRat 9 10
    endProb := mkRat 99 100
    clusters := none
    medoids := [] }

/-! ## Witnesses -/

theorem associate_partition_invariant_witness :
    ∃ cl cost, associateMedoidsToClosestPoint [[0, 1], [1, 0]] 2 [0] =
        some (cl, cost) ∧
      cl.map Prod.fst = [0] ∧
      (∀ x, x ∈ (cl.map Prod.snd).flatten ↔ x < 2) ∧
      ((cl.map Prod.snd).flatten).Nodup ∧
      List.Pairwise (fun p q => ∀ x ∈ p.2, x ∉ q.2) cl ∧
      (∀ m ∈ [0], ∃ mems, mapGet cl m = some mems ∧ m ∈ mems) :=
  associate_partition_invariant [[0, 1], [1, 0]] 2 [0] rfl (by decide)
    (by decide) (by decide) (by decide) (by decide)

theorem associate_cost_formula_witness :
    ∃ st, assocLoop [[0, 1], [1, 0]] 2 [0] 3 (assocInit [0]) = some st ∧
      associateMedoidsToClosestPoint [[0, 1], [1, 0]] 2 [0] =
        some (st.clusters, configCost st) ∧
      configCost st = (([0] : List Nat).map (fun m =>
        ((mapGet st.costs m).getD 0) /
          (((mapGet st.clusters m).getD []).length : ℚ))).sum :=
  associate_cost_formula [[0, 1], [1, 0]] 2 [0] rfl (by decide) (by decide)
    (by decide) (by decide) (by decide)

theorem associate_k_eq_n_sub_one_witness :
    ∃ cl cost m₀ q, associateMedoidsToClosestPoint [[0, 1], [1, 0]] 2 [0] =
        some (cl, cost) ∧
      m₀ ∈ [0] ∧ q < 2 ∧ q ∉ [0] ∧ mapGet cl m₀ = some [m₀, q] ∧
      (∀ m ∈ [0], m ≠ m₀ → mapGet cl m = some [m]) :=
  associate_k_eq_n_sub_one [[0, 1], [1, 0]] 2 [0] rfl (by decide) (by decide)
    (by decide) (by decide) (by decide) (by decide)

theorem seeding_window_in_bounds_witness :
    (∀ count : Nat, 1 ≤ count →
      (0 ≤ seedStartIdx (mkRat 9 10) count ∧
        seedStartIdx (mkRat 9 10) count ≤ (count : Int) - 1) ∧
      (0 ≤ seedEndIdx (mkRat 99 100) count ∧
        seedEndIdx (mkRat 99 100) count ≤ (count : Int) - 1) ∧
      (∀ r : Int,
        0 ≤ jsRandom (seedStartIdx (mkRat 9 10) count)
          (seedEndIdx (mkRat 99 100) count) r ∧
        jsRandom (seedStartIdx (mkRat 9 10) count)
          (seedEndIdx (mkRat 99 100) count) r ≤ (count : Int) - 1)) ∧
    (∀ (M : List (List ℚ)) (n : Nat) (k : Int) (oracle : Nat → Int),
      1 ≤ k → k ≤ (n : Int) →
      ∃ ms, initializeMedoids M n k (mkRat 9 10) (mkRat 99 100) oracle =
        some ms ∧ ms.Nodup ∧ (∀ x ∈ ms, x < n) ∧ (ms.length : Int) = k) :=
  seeding_window_in_bounds (mkRat 9 10) (mkRat 99 100) (by decide)
    (by decide) (by decide)

theorem run_terminates_witness :
    ∃ res, run demoEngine2 (fun _ => 0) 5 (mkRat 1 100) = some res ∧
      res.passes ≤ 5 :=
  run_terminates [[0, 1], [1, 0]] 2 1 (mkRat 9 10) (mkRat 99 100) demoEngine2
    (fun _ => 0) 5 (mkRat 1 100) rfl (by decide) (by decide)
    (by with_unfolding_all rfl) (by decide) (by decide)

theorem run_cost_monotone_witness :
    ∃ res, run demoEngine2 (fun _ => 0) 4 (mkRat 1 100) = some res ∧
      (∃ c₀, TraceChain c₀ res.trace res.finalCost) ∧
      (∀ t ∈ res.trace,
        (t.accepted = true ↔ t.newCost < t.costBefore) ∧
        (t.accepted = true → t.costAfter = t.newCost ∧
          t.costAfter < t.costBefore) ∧
        (t.accepted = false → t.costAfter = t.costBefore) ∧
        t.costAfter ≤ t.costBefore) :=
  run_cost_monotone [[0, 1], [1, 0]] 2 1 (mkRat 9 10) (mkRat 99 100)
    demoEngine2 (fun _ => 0) 4 (mkRat 1 100) rfl (by decide) (by decide)
    (by with_unfolding_all rfl) (by decide)

theorem run_candidate_formation_witness :
    ∃ res, run cexEngine (fun _ => 0) 1 (mkRat 1 100) = some res ∧
      ∀ t ∈ res.trace,
        t.candidate = jsAdd (jsDelete t.curBefore t.medoid) t.nonMedoid ∧
        t.nonMedoid ∉ t.curBefore ∧ t.curBefore.Nodup ∧ t.candidate.Nodup ∧
        (t.medoid ∈ t.curBefore →
          t.candidate.length = t.curBefore.length) ∧
        (t.medoid ∉ t.curBefore →
          t.candidate.length = t.curBefore.length + 1) :=
  run_candidate_formation [[0, 1, 2], [1, 0, 1], [2, 1, 0]] 3 1 (mkRat 9 10)
    (mkRat 99 100) cexEngine (fun _ => 0) 1 (mkRat 1 100) rfl (by decide)
    (by decide) (by with_unfolding_all rfl) (by decide)

theorem constructor_validation_witness :
    ∃ msg, kmedoidsNew ([[0]] : List (List ℚ)) 1 (mkRat 9 10) (mkRat 9 10) =
      Except.error msg :=
  (constructor_validation [[0]] 1 (mkRat 9 10) (mkRat 9 10)).1.mpr
    (Or.inl (le_refl _))

theorem constructor_accepts_nonpositive_k_witness :
    ∃ eng, kmedoidsNew ([[0]] : List (List ℚ)) (-3) (mkRat 1 2) 1 =
      Except.ok eng :=
  constructor_accepts_nonpositive_k [[0]] (-3) (mkRat 1 2) 1 (by decide)
    (by decide) (by decide) (by decide) (by decide)

end KMedoids
